import Mathlib

/-!
Verification of the `snapshot-query` accessibility-tree query engine
(`src/snapshot_query/query.py`), as a shallow embedding in Lean.

Conventions of the embedding:
* `SnapshotElement` mirrors the pydantic model (`models.py`): `role`, `ref`,
  optional `name`, and `children`.  Python `None` and `[]` for `children`
  behave identically in every engine operation (each use is guarded by
  truthiness), so `children` is a plain list.
* Python dictionaries used by the engine (term-frequency maps, role
  counters, selector-fragment attribute maps) are insertion-ordered
  association lists.
* Python floats are modelled by `ℚ`; `math.log` is an abstract parameter
  `lg` of the index build.  A Python division that can raise
  `ZeroDivisionError` is modelled by an explicit zero-divisor guard
  returning `Except.error`, and Python functions that can raise are
  `Except`-valued.
* Python's `re` engine for `find_by_regex` is abstracted by a
  caller-supplied compile function (`re.compile` either fails or yields a
  match predicate).  The selector-engine regexes of `_parse_selector` and
  `_parse_attributes` are deterministic on their inputs and are embedded
  as explicit character-list functions.
* Character classes are modelled on the script subset the engine is
  specified for: `isPyWordChar` covers Python's `\w` on ASCII plus the CJK
  ideograph block `一`–`鿿` that the tokenizer singles out,
  `pyLower` is `str.lower` on ASCII (CJK ideographs are unaffected by
  lower-casing), and `isPySpace` is Python's `\s` / `str.split()`
  whitespace.
* Python `list.sort(key=..., reverse=True)` is a stable descending sort;
  its output is uniquely determined by the key order plus stability, and
  is embedded by the stable insertion sort `sortDesc`.
-/

namespace SnapshotQuery

/-- One node of the accessibility tree (pydantic `SnapshotElement`). -/
inductive SnapshotElement : Type where
  | mk (role : String) (ref : String) (name : Option String)
       (children : List SnapshotElement) : SnapshotElement

namespace SnapshotElement

def role : SnapshotElement → String
  | mk r _ _ _ => r

def ref : SnapshotElement → String
  | mk _ f _ _ => f

def name : SnapshotElement → Option String
  | mk _ _ n _ => n

def children : SnapshotElement → List SnapshotElement
  | mk _ _ _ cs => cs

instance : Inhabited SnapshotElement := ⟨mk "" "" none []⟩

/-- Python truthiness of `item.name`: not `None` and not the empty string. -/
def truthyName (e : SnapshotElement) : Bool :=
  match e.name with
  | some s => s ≠ ""
  | none => false

end SnapshotElement

open SnapshotElement

/-! ## Character and string helpers (Python built-ins) -/

/-- Python whitespace (`\s`, `str.strip`, `str.split`). -/
def isPySpace (c : Char) : Bool :=
  c = ' ' || c = '\t' || c = '\n' || c = '\r' || c = '\x0b' || c = '\x0c'

/-- CJK unified ideographs `一`–`鿿`, the block singled out by
`BM25Index._tokenize`. -/
def isCJK (c : Char) : Bool :=
  0x4e00 ≤ c.toNat && c.toNat ≤ 0x9fff

/-- Python `\w` on the modelled script subset: ASCII alphanumerics,
underscore, and CJK ideographs (which are word characters in Python). -/
def isPyWordChar (c : Char) : Bool :=
  c.isAlphanum || c = '_' || isCJK c

/-- ASCII `str.lower`. -/
def pyLower (s : String) : String := String.mk (s.toList.map Char.toLower)

/-- Python `str.strip()` on a character list. -/
def pyStripChars (cs : List Char) : List Char :=
  ((cs.dropWhile isPySpace).reverse.dropWhile isPySpace).reverse

/-- Python `str.strip()`. -/
def pyStrip (s : String) : String := String.mk (pyStripChars s.toList)

/-- `p.isPrefixOf s` on characters: Python `str.startswith`. -/
def listIsPre (p s : List Char) : Bool :=
  match p, s with
  | [], _ => true
  | _ :: _, [] => false
  | a :: as, b :: bs => a == b && listIsPre as bs

/-- Python `str.startswith`. -/
def strStarts (s p : String) : Bool := listIsPre p.toList s.toList

/-- Python `str.endswith`. -/
def strEnds (s p : String) : Bool := listIsPre p.toList.reverse s.toList.reverse

/-- Substring containment on characters: Python `in`. -/
def listIsSub (p : List Char) : List Char → Bool
  | [] => listIsPre p []
  | c :: t => listIsPre p (c :: t) || listIsSub p t

/-- Python `needle in hay` for strings. -/
def strContains (hay needle : String) : Bool := listIsSub needle.toList hay.toList


/-! ## Tokenizer (`BM25Index._tokenize`, query.py:34-49) -/

/-- `text.split()`: split on whitespace runs, discarding empty chunks. -/
def splitWsAux : List Char → List Char → List (List Char)
  | [], acc => if acc.isEmpty then [] else [acc.reverse]
  | c :: rest, acc =>
    if isPySpace c then
      if acc.isEmpty then splitWsAux rest [] else acc.reverse :: splitWsAux rest []
    else splitWsAux rest (c :: acc)

def splitWs (cs : List Char) : List (List Char) := splitWsAux cs []

/-- One chunk of `_tokenize`: `re.match(r'[一-鿿]+', word)` tests
whether the chunk *starts* with a CJK ideograph; if so the chunk is split
into single characters, otherwise it is kept whole. -/
def tokenizeChunk (w : List Char) : List String :=
  match w with
  | c :: _ => if isCJK c then w.map (fun ch => String.mk [ch]) else [String.mk w]
  | [] => []

/-- `BM25Index._tokenize`: lower-case, replace every character that is not
a word character / whitespace / CJK ideograph by a space, split on
whitespace, split CJK-initial chunks per character, and drop terms that
are empty after stripping. -/
def pyTokenizeText (text : String) : List String :=
  let cleaned := (pyLower text).toList.map
    (fun c => if isPyWordChar c || isPySpace c || isCJK c then c else ' ')
  let tokens := (splitWs cleaned).flatMap tokenizeChunk
  tokens.filter (fun t => pyStrip t ≠ "")

/-! ## BM25 index (`BM25Index`, query.py:15-131) -/

/-- Lookup in an insertion-ordered `str → int` dictionary. -/
def alistGetN (k : String) : List (String × Nat) → Option Nat
  | [] => none
  | (k', v) :: rest => if k' = k then some v else alistGetN k rest

/-- Lookup in an insertion-ordered `str → float` dictionary. -/
def alistGetQ (k : String) : List (String × ℚ) → Option ℚ
  | [] => none
  | (k', v) :: rest => if k' = k then some v else alistGetQ k rest

/-- `defaultdict(int)` increment: `d[k] += 1` keeps insertion order. -/
def alistIncr (k : String) : List (String × Nat) → List (String × Nat)
  | [] => [(k, 1)]
  | (k', v) :: rest => if k' = k then (k', v + 1) :: rest else (k', v) :: alistIncr k rest

/-- Per-document term-frequency map built from the token list
(`add_document`'s `for token in tokens: self.doc_freqs[-1][token] += 1`). -/
def freqMap (tokens : List String) : List (String × Nat) :=
  tokens.foldl (fun m t => alistIncr t m) []

/-- Total number of token occurrences of one document
(`sum(freqs.values())`). -/
def freqTotal (freqs : List (String × Nat)) : Nat :=
  (freqs.map (fun p => p.2)).sum

/-- `BM25Index` state.  `k1`/`b` are the BM25 parameters, the remaining
fields mirror `documents`, `doc_freqs`, `idf`, `avg_doc_len`, `_built`. -/
structure BM25Index where
  k1 : ℚ
  b : ℚ
  documents : List String
  docFreqs : List (List (String × Nat))
  idf : List (String × ℚ)
  avgDocLen : ℚ
  built : Bool

/-- A fresh `BM25Index()` with the default parameters `k1=1.5`, `b=0.75`. -/
def BM25Index.init : BM25Index :=
  ⟨3/2, 3/4, [], [], [], 0, false⟩

/-- `BM25Index.add_document`. -/
def BM25Index.addDocument (idx : BM25Index) (text : String) : BM25Index :=
  { idx with
    documents := idx.documents ++ [text]
    docFreqs := idx.docFreqs ++ [freqMap (pyTokenizeText text)]
    built := false }

/-- Number of documents containing each term at least once
(`term_doc_count`). -/
def termDocCount (dfs : List (List (String × Nat))) : List (String × Nat) :=
  dfs.foldl (fun m freqs => freqs.foldl (fun m' p => alistIncr p.1 m') m) []

/-- `BM25Index.build`, with `math.log` abstracted by `lg`. -/
def BM25Index.build (lg : ℚ → ℚ) (idx : BM25Index) : BM25Index :=
  if idx.built then idx
  else if idx.documents.isEmpty then { idx with built := true }
  else
    let totalLen : Nat := (idx.docFreqs.map freqTotal).sum
    let n : ℚ := (idx.documents.length : ℚ)
    let tdc := termDocCount idx.docFreqs
    { idx with
      avgDocLen := (totalLen : ℚ) / n
      idf := tdc.map (fun p =>
        (p.1, lg ((n - (p.2 : ℚ) + 1/2) / ((p.2 : ℚ) + 1/2) + 1)))
      built := true }

/-- The per-term accumulation loop of `BM25Index.score` over the query
tokens.  Terms absent from the IDF table or from the document are skipped;
otherwise the BM25 fraction is added, with both Python divisions checked. -/
def scoreLoop (idx : BM25Index) (freqs : List (String × Nat)) (docLen : Nat) :
    List String → ℚ → Except String ℚ
  | [], acc => .ok acc
  | t :: ts, acc =>
    match alistGetQ t idx.idf with
    | none => scoreLoop idx freqs docLen ts acc
    | some idfv =>
      match alistGetN t freqs with
      | none => scoreLoop idx freqs docLen ts acc
      | some 0 => scoreLoop idx freqs docLen ts acc
      | some (tf + 1) =>
        -- `doc_len / self.avg_doc_len` raises on a zero average
        if idx.avgDocLen = 0 then .error "division by zero"
        -- `numerator / denominator` raises on a zero denominator
        else if ((tf + 1 : Nat) : ℚ) +
            idx.k1 * (1 - idx.b + idx.b * ((docLen : ℚ) / idx.avgDocLen)) = 0 then
          .error "division by zero"
        else
          scoreLoop idx freqs docLen ts
            (acc + idfv * ((tf + 1 : Nat) : ℚ) * (idx.k1 + 1) /
              (((tf + 1 : Nat) : ℚ) +
                idx.k1 * (1 - idx.b + idx.b * ((docLen : ℚ) / idx.avgDocLen))))

/-- `BM25Index.score` applied to an already-tokenized query, on an index
that is already built. -/
def BM25Index.scoreTokens (idx : BM25Index) (qtoks : List String) (i : Nat) :
    Except String ℚ :=
  if idx.documents.length ≤ i then .ok 0
  else
    let freqs := idx.docFreqs.getD i []
    scoreLoop idx freqs (freqTotal freqs) qtoks 0

/-- `BM25Index.score` (query.py:88): builds the index if necessary, then
scores the tokenized query against document `i`. -/
def BM25Index.score (lg : ℚ → ℚ) (idx : BM25Index) (q : String) (i : Nat) :
    Except String ℚ :=
  (BM25Index.build lg idx).scoreTokens (pyTokenizeText q) i

/-- `[(i, self.score(query, i)) for i in range(len(self.documents))]`:
a raised exception aborts the whole comprehension. -/
def scorePairs (sc : Nat → Except String ℚ) :
    List Nat → Except String (List (Nat × ℚ))
  | [] => .ok []
  | i :: is =>
    match sc i with
    | .error e => .error e
    | .ok s =>
      match scorePairs sc is with
      | .error e => .error e
      | .ok rest => .ok ((i, s) :: rest)

/-- One step of the stable descending insertion sort: keep skipping
entries with a strictly larger score, so that an element inserted later
lands after every earlier element with an equal score. -/
def insertDesc (p : Nat × ℚ) : List (Nat × ℚ) → List (Nat × ℚ)
  | [] => [p]
  | q :: rest => if p.2 < q.2 then q :: insertDesc p rest else p :: q :: rest

/-- `scores.sort(key=lambda x: x[1], reverse=True)`: Python's sort is
stable, and the stable descending-by-score result is unique, so the
stable insertion sort is an exact model. -/
def sortDesc (l : List (Nat × ℚ)) : List (Nat × ℚ) := l.foldr insertDesc []

/-- `BM25Index.search` (query.py:117): build if needed, score every
document, sort stably by descending score, drop zero scores, truncate to
`top_k` when given. -/
def BM25Index.search (lg : ℚ → ℚ) (idx : BM25Index) (q : String)
    (topK : Option Nat) : Except String (List (Nat × ℚ)) :=
  let idx' := BM25Index.build lg idx
  match scorePairs (fun i => idx'.scoreTokens (pyTokenizeText q) i)
      (List.range idx'.documents.length) with
  | .error e => .error e
  | .ok scores =>
    match topK with
    | none => .ok ((sortDesc scores).filter (fun p => 0 < p.2))
    | some k => .ok (((sortDesc scores).filter (fun p => 0 < p.2)).take k)

/-! ## Structural matchers (`SnapshotQuery`, query.py:134-389) -/

mutual
/-- Pre-order (document-order) listing rooted at one node. -/
def preorderE : SnapshotElement → List SnapshotElement
  | .mk r f n cs => .mk r f n cs :: preorderL cs

/-- Pre-order listing of a forest: parent before children, children
before later siblings. -/
def preorderL : List SnapshotElement → List SnapshotElement
  | [] => []
  | e :: rest => preorderE e ++ preorderL rest
end

mutual
/-- `find_by_ref`'s recursion on one node: the node itself, else its
children left to right. -/
def findByRefE (r : String) : SnapshotElement → Option SnapshotElement
  | .mk ro f n cs => if f = r then some (.mk ro f n cs) else findByRefL r cs

/-- `SnapshotQuery.find_by_ref` (query.py:252): first pre-order node
whose `ref` equals the query. -/
def findByRefL (r : String) : List SnapshotElement → Option SnapshotElement
  | [] => none
  | e :: rest =>
    match findByRefE r e with
    | some x => some x
    | none => findByRefL r rest
end

mutual
/-- `get_element_path`'s per-node step: extend the current path with this
node, stop if the ref matches, else search the children. -/
def pathE (r : String) : SnapshotElement → List SnapshotElement →
    Option (List SnapshotElement)
  | .mk ro f n cs, cur =>
    let np := cur ++ [SnapshotElement.mk ro f n cs]
    if f = r then some np else pathL r cs np

/-- `search_recursive(items, current_path)` of `get_element_path`. -/
def pathL (r : String) : List SnapshotElement → List SnapshotElement →
    Option (List SnapshotElement)
  | [], _ => none
  | e :: rest, cur =>
    match pathE r e cur with
    | some p => some p
    | none => pathL r rest cur
end

/-- `SnapshotQuery.get_element_path` (query.py:278): root-to-node path of
the first pre-order node with the requested `ref`, `[]` when absent. -/
def getElementPath (r : String) (t : List SnapshotElement) : List SnapshotElement :=
  (pathL r t []).getD []

mutual
/-- Depth (0 at a root) of the first pre-order node with ref `r` in the
subtree of one node. -/
def findDepthE (r : String) : SnapshotElement → Option Nat
  | .mk _ f _ cs => if f = r then some 0 else (findDepthL r cs).map (· + 1)

/-- Depth of the first pre-order node with ref `r` in a forest. -/
def findDepthL (r : String) : List SnapshotElement → Option Nat
  | [] => none
  | e :: rest =>
    match findDepthE r e with
    | some d => some d
    | none => findDepthL r rest
end

mutual
/-- `find_by_name` (query.py:201, `use_bm25=False`) on one node. -/
def findByNameE (nm : String) (exact : Bool) : SnapshotElement → List SnapshotElement
  | .mk r f n cs =>
    let e := SnapshotElement.mk r f n cs
    let hit :=
      match n with
      | some s => if s ≠ "" then (if exact then s == nm else strContains s nm) else false
      | none => false
    (if hit then [e] else []) ++ findByNameL nm exact cs

def findByNameL (nm : String) (exact : Bool) : List SnapshotElement → List SnapshotElement
  | [] => []
  | e :: rest => findByNameE nm exact e ++ findByNameL nm exact rest
end

mutual
/-- `find_by_role` (query.py:237) on one node. -/
def findByRoleE (ro : String) : SnapshotElement → List SnapshotElement
  | .mk r f n cs =>
    (if r = ro then [SnapshotElement.mk r f n cs] else []) ++ findByRoleL ro cs

def findByRoleL (ro : String) : List SnapshotElement → List SnapshotElement
  | [] => []
  | e :: rest => findByRoleE ro e ++ findByRoleL ro rest
end

/-- `find_interactive_elements` (query.py:268): the fixed role list, each
independently role-searched, as an insertion-ordered dictionary. -/
def interactiveRoles : List String :=
  ["button", "link", "textbox", "checkbox", "radio", "combobox", "slider"]

def findInteractiveElements (t : List SnapshotElement) :
    List (String × List SnapshotElement) :=
  interactiveRoles.map (fun ro => (ro, findByRoleL ro t))

mutual
/-- `count_elements` (query.py:299) on one node, threading the counter
dictionary. -/
def countElementsE (acc : List (String × Nat)) : SnapshotElement → List (String × Nat)
  | .mk r _ _ cs => countElementsL (alistIncr r acc) cs

def countElementsL (acc : List (String × Nat)) : List SnapshotElement → List (String × Nat)
  | [] => acc
  | e :: rest => countElementsL (countElementsE acc e) rest
end

def countElements (t : List SnapshotElement) : List (String × Nat) :=
  countElementsL [] t

mutual
/-- `extract_all_refs` (query.py:314) on one node. -/
def extractAllRefsE : SnapshotElement → List String
  | .mk _ f _ cs => f :: extractAllRefsL cs

def extractAllRefsL : List SnapshotElement → List String
  | [] => []
  | e :: rest => extractAllRefsE e ++ extractAllRefsL rest
end

mutual
/-- `find_elements_with_text` (query.py:328) on one node: only truthy
names are compared; the case flag lower-cases both sides. -/
def findTextE (searchText : String) (cs_flag : Bool) :
    SnapshotElement → List SnapshotElement
  | .mk r f n cs =>
    let e := SnapshotElement.mk r f n cs
    let hit :=
      match n with
      | some s =>
        if s ≠ "" then strContains (if cs_flag then s else pyLower s) searchText
        else false
      | none => false
    (if hit then [e] else []) ++ findTextL searchText cs_flag cs

def findTextL (searchText : String) (cs_flag : Bool) :
    List SnapshotElement → List SnapshotElement
  | [] => []
  | e :: rest => findTextE searchText cs_flag e ++ findTextL searchText cs_flag rest
end

/-- `find_elements_with_text`: the query is lower-cased up front unless
`case_sensitive`. -/
def findElementsWithText (text : String) (cs_flag : Bool)
    (t : List SnapshotElement) : List SnapshotElement :=
  findTextL (if cs_flag then text else pyLower text) cs_flag t

mutual
/-- `find_by_regex`'s `search_recursive` on one node: the field dispatch
happens per visited node and raises `ValueError` on an unsupported field;
`rx` is the compiled pattern's match test (`regex.search`). -/
def findByRegexE (rx : String → Bool) (field : String) :
    SnapshotElement → Except String (List SnapshotElement)
  | .mk r f n cs => do
    let fieldValue ←
      if field = "name" then Except.ok (n.getD "")
      else if field = "role" then Except.ok r
      else if field = "ref" then Except.ok f
      else Except.error ("unsupported field: " ++ field)
    let hd := if rx fieldValue then [SnapshotElement.mk r f n cs] else []
    let sub ← findByRegexL rx field cs
    .ok (hd ++ sub)

def findByRegexL (rx : String → Bool) (field : String) :
    List SnapshotElement → Except String (List SnapshotElement)
  | [] => .ok []
  | e :: rest => do
    let hd ← findByRegexE rx field e
    let tl ← findByRegexL rx field rest
    .ok (hd ++ tl)
end

/-- `SnapshotQuery.find_by_regex` (query.py:346): compile first (an
invalid pattern fails the call before any traversal), then traverse.
`compile` abstracts `re.compile` with the case flag baked in. -/
def findByRegex (compile : String → Except String (String → Bool))
    (pattern field : String) (t : List SnapshotElement) :
    Except String (List SnapshotElement) :=
  match compile pattern with
  | .error e => .error ("invalid regex: " ++ e)
  | .ok rx => findByRegexL rx field t

/-! ## BM25-backed name search (query.py:159-199) -/

mutual
/-- `_build_bm25_index.collect_elements`: pre-order collection of the
elements with a truthy name. -/
def elementsWithNamesE : SnapshotElement → List SnapshotElement
  | .mk r f n cs =>
    let e := SnapshotElement.mk r f n cs
    (if truthyName e then [e] else []) ++ elementsWithNamesL cs

def elementsWithNamesL : List SnapshotElement → List SnapshotElement
  | [] => []
  | e :: rest => elementsWithNamesE e ++ elementsWithNamesL rest
end

/-- The BM25 index `_build_bm25_index` constructs: one document per
truthy-named element, in pre-order, then `build()`. -/
def bm25IndexOf (lg : ℚ → ℚ) (t : List SnapshotElement) : BM25Index :=
  BM25Index.build lg
    ((elementsWithNamesL t).foldl
      (fun idx e => idx.addDocument (e.name.getD "")) BM25Index.init)

/-- `find_by_name_bm25` (query.py:179): build the index, shortcut to `[]`
when no element has a name, otherwise map the ranked document indices
back to elements. -/
def findByNameBm25 (lg : ℚ → ℚ) (t : List SnapshotElement) (q : String)
    (topK : Option Nat) : Except String (List SnapshotElement) :=
  let ews := elementsWithNamesL t
  if ews.isEmpty then .ok []
  else
    match (bm25IndexOf lg t).search lg q topK with
    | .error e => .error e
    | .ok results => .ok (results.map (fun p => ews.getD p.1 default))

/-! ## Selector engine (`find_by_selector`, query.py:391-678) -/

/-- One parsed selector fragment (a `part` dictionary of
`_parse_selector`): optional tag (role), optional id (ref), attribute
clauses in insertion order, and the combinator attached to it (`' '` for
descendant, `'>'` for direct child). -/
structure Fragment where
  tag : Option String
  id : Option String
  attrs : List (String × String)
  combinator : Option Char
deriving DecidableEq, Repr

/-- A `part` dictionary is truthy iff some key was set (the combinator is
never set before the part is appended). -/
def Fragment.isTruthy (p : Fragment) : Bool :=
  p.tag.isSome || p.id.isSome || !p.attrs.isEmpty

def isQuoteChar (c : Char) : Bool := c = '"' || c = Char.ofNat 39

def isAsciiAlpha (c : Char) : Bool :=
  ('a' ≤ c && c ≤ 'z') || ('A' ≤ c && c ≤ 'Z')

def isAsciiAlnum (c : Char) : Bool := isAsciiAlpha c || c.isDigit

/-- The value part of the `_parse_attributes` regex after the `=`:
`["\']?([^"\']*)["\']?$` — strip at most one leading and one trailing
quote; the remaining value must be quote-free. -/
def parseAttrValue (r : List Char) : Option (List Char) :=
  let r1 := match r with
    | c :: t => if isQuoteChar c then t else r
    | [] => []
  if r1.all (fun c => !isQuoteChar c) then some r1
  else
    match r1.getLast? with
    | some q =>
      if isQuoteChar q && r1.dropLast.all (fun c => !isQuoteChar c) then
        some r1.dropLast
      else none
    | none => none

/-- The `_parse_attributes` regex
`^(\w+)([*^$]?)=["\']?([^"\']*)["\']?$`: attribute name, optional
operator character, value.  The regex is deterministic: the greedy `\w+`
run is maximal, and an operator character not followed by `=` fails the
whole match. -/
def parseAttrClause (s : List Char) : Option (String × Option Char × String) :=
  let w := s.takeWhile isPyWordChar
  let rest := s.dropWhile isPyWordChar
  if w.isEmpty then none
  else
    match rest with
    | '=' :: r => (parseAttrValue r).map (fun v => (String.mk w, none, String.mk v))
    | '*' :: '=' :: r => (parseAttrValue r).map (fun v => (String.mk w, some '*', String.mk v))
    | '^' :: '=' :: r => (parseAttrValue r).map (fun v => (String.mk w, some '^', String.mk v))
    | '$' :: '=' :: r => (parseAttrValue r).map (fun v => (String.mk w, some '$', String.mk v))
    | _ => none

/-- How `_parse_attributes` stores a parsed clause: `*=` wraps the value
in asterisks, `^=` prepends `^`, `$=` appends `$`, bare `=` stores the
value verbatim. -/
def applyOp (op : Option Char) (v : String) : String :=
  match op with
  | none => v
  | some c => if c = '*' then "*" ++ v ++ "*" else if c = '^' then "^" ++ v else v ++ "$"

/-- Dictionary assignment `part['attrs'][name] = value` (insertion
order, overwrite in place). -/
def alistSet (k v : String) : List (String × String) → List (String × String)
  | [] => [(k, v)]
  | (k', v') :: rest => if k' = k then (k, v) :: rest else (k', v') :: alistSet k v rest

/-- `SnapshotQuery._parse_attributes` (query.py:657). -/
def parseAttributes (attrs : List (String × String)) (attrStr : List Char) :
    List (String × String) :=
  match parseAttrClause attrStr with
  | none => attrs
  | some (nm, op, v) => alistSet nm (applyOp op v) attrs

/-- Token kinds of the `_parse_selector` scanner regex
`([^\s>]+|\s+|\s*>\s*)`: a run of non-space non-`>` characters, a
whitespace run, or `>` with its trailing whitespace. -/
def selTokensAux : List Char → Option (Nat × List Char) → List (List Char)
  | [], none => []
  | [], some (_, acc) => [acc.reverse]
  | c :: rest, none =>
    if isPySpace c then selTokensAux rest (some (2, [c]))
    else if c = '>' then selTokensAux rest (some (3, [c]))
    else selTokensAux rest (some (1, [c]))
  | c :: rest, some (1, acc) =>
    if !isPySpace c && c ≠ '>' then selTokensAux rest (some (1, c :: acc))
    else if isPySpace c then acc.reverse :: selTokensAux rest (some (2, [c]))
    else acc.reverse :: selTokensAux rest (some (3, [c]))
  | c :: rest, some (2, acc) =>
    if isPySpace c then selTokensAux rest (some (2, c :: acc))
    else if c = '>' then acc.reverse :: selTokensAux rest (some (3, [c]))
    else acc.reverse :: selTokensAux rest (some (1, [c]))
  | c :: rest, some (_, acc) =>
    if isPySpace c then selTokensAux rest (some (3, c :: acc))
    else if c = '>' then acc.reverse :: selTokensAux rest (some (3, [c]))
    else acc.reverse :: selTokensAux rest (some (1, [c]))

/-- `re.findall(r'([^\s>]+|\s+|\s*>\s*)', selector)`. -/
def selTokens (cs : List Char) : List (List Char) := selTokensAux cs none

/-- Parse one (stripped, nonempty, non-`>`) token into a `part`
dictionary, `none` when the dictionary stays empty.  Tries, in order: the
combined form `tag[...]`, `#id`, `[...]`, bare tag. -/
def parseFragmentToken (t : List Char) : Option Fragment :=
  let tagChars := t.takeWhile isAsciiAlnum
  let afterTag := t.dropWhile isAsciiAlnum
  if !tagChars.isEmpty && isAsciiAlpha (tagChars.headD ' ') &&
      listIsPre ['['] afterTag && listIsPre [']'] afterTag.reverse &&
      decide (3 ≤ afterTag.length) then
    -- combined selector `tag[...]` (`^([a-z][a-z0-9]*)(\[.+\])$`, IGNORECASE)
    some ⟨some (String.mk tagChars), none,
      parseAttributes [] ((afterTag.drop 1).dropLast), none⟩
  else
    match t with
    | '#' :: ident => some ⟨none, some (String.mk ident), [], none⟩
    | _ =>
      if listIsPre ['['] t && listIsPre [']'] t.reverse then
        let attrs := parseAttributes [] ((t.drop 1).dropLast)
        if attrs.isEmpty then none else some ⟨none, none, attrs, none⟩
      else if !t.isEmpty && isAsciiAlpha (t.headD ' ') && (t.all isAsciiAlnum) then
        some ⟨some (String.mk t), none, [], none⟩
      else none

/-- `parts[-1]['combinator'] = c` (no-op on an empty parts list, matching
the `if parts:` guard). -/
def setLastComb (c : Char) : List Fragment → List Fragment
  | [] => []
  | [f] => [{ f with combinator := some c }]
  | f :: g :: rest => f :: setLastComb c (g :: rest)

/-- The token loop of `_parse_selector`: `prevSpace` records whether the
previous raw token stripped to the empty string (a whitespace token). -/
def parseSelParts : List (List Char) → Bool → List Fragment → List Fragment
  | [], _, parts => parts
  | tok :: rest, prevSpace, parts =>
    let t := pyStripChars tok
    if t.isEmpty then parseSelParts rest true parts
    else if t = ['>'] then parseSelParts rest false (setLastComb '>' parts)
    else
      let parts1 :=
        if prevSpace && !parts.isEmpty then setLastComb ' ' parts else parts
      match parseFragmentToken t with
      | some fr => parseSelParts rest false (parts1 ++ [fr])
      | none => parseSelParts rest false parts1

/-- `SnapshotQuery._parse_selector` (query.py:599). -/
def parseSelector (selector : String) : List Fragment :=
  let st := pyStripChars selector.toList
  if st.isEmpty then [] else parseSelParts (selTokens st) false []

/-- The attribute-value test of `match_element` (query.py:450-469): a
stored value wrapped in `*` means containment, a leading `^` prefix, a
trailing `$` suffix, anything else exact equality.  Operates on the
stored value's characters with Python slice semantics. -/
def attrCharsMatch (st iv : List Char) : Bool :=
  if listIsPre ['*'] st && listIsPre ['*'] st.reverse then
    listIsSub ((st.drop 1).dropLast) iv
  else if listIsPre ['^'] st then listIsPre (st.drop 1) iv
  else if listIsPre ['$'] st.reverse then listIsPre st.dropLast.reverse iv.reverse
  else iv == st

def attrValueMatch (stored itemVal : String) : Bool :=
  attrCharsMatch stored.toList itemVal.toList

/-- The per-fragment constraint test shared by `match_element` and
`_match_descendant`: tag against role, id against ref, each attribute
clause against its field (clauses naming an unknown field are skipped). -/
def checkFragment (sel : Fragment) (e : SnapshotElement) : Bool :=
  (match sel.tag with | some tg => e.role == tg | none => true) &&
  (match sel.id with | some i => e.ref == i | none => true) &&
  sel.attrs.all (fun p =>
    if p.1 = "name" then attrValueMatch p.2 (e.name.getD "")
    else if p.1 = "role" then attrValueMatch p.2 e.role
    else if p.1 = "ref" then attrValueMatch p.2 e.ref
    else true)

mutual
/-- The *inner* `match_element` of `SnapshotQuery._match_descendant`
(query.py:522-587): note that with remaining fragments it only handles
the `'>'` combinator — a descendant combinator at this point yields
`False`. -/
def matchElementD : SnapshotElement → List Fragment → Bool
  | _, [] => true
  | .mk r f n cs, sel :: rest =>
    if !checkFragment sel (.mk r f n cs) then false
    else if rest.isEmpty then true
    else
      match sel.combinator with
      | some c => if c = '>' then matchElementDL cs rest else false
      | none => false

def matchElementDL : List SnapshotElement → List Fragment → Bool
  | [], _ => false
  | e :: es, sels => matchElementD e sels || matchElementDL es sels
end

mutual
/-- `SnapshotQuery._match_descendant` (query.py:520): does any node of
this subtree (the node itself or any descendant) satisfy the remaining
fragments under the inner `match_element`? -/
def matchDescendant : SnapshotElement → List Fragment → Bool
  | .mk r f n cs, sels =>
    matchElementD (.mk r f n cs) sels || matchDescendantL cs sels

def matchDescendantL : List SnapshotElement → List Fragment → Bool
  | [], _ => false
  | e :: es, sels => matchDescendant e sels || matchDescendantL es sels
end

mutual
/-- The `match_element` closure of `find_by_selector` (query.py:416):
check the first fragment's constraints, then follow its combinator —
descendant via `_match_descendant`, direct child via itself. -/
def matchElement : SnapshotElement → List Fragment → Bool
  | _, [] => true
  | .mk r f n cs, sel :: rest =>
    if !checkFragment sel (.mk r f n cs) then false
    else if rest.isEmpty then true
    else
      match sel.combinator with
      | some c =>
        if c = ' ' then matchDescendantL cs rest
        else if c = '>' then matchElementL cs rest
        else false
      | none => false

def matchElementL : List SnapshotElement → List Fragment → Bool
  | [], _ => false
  | e :: es, sels => matchElement e sels || matchElementL es sels
end

/-- The per-node result collection of `search_recursive` (query.py:500):
when there are several fragments and `parts[0]` carries the `'>'`
combinator, the matching *children* are reported; otherwise the node
itself is matched against all fragments. -/
def selHits (parts : List Fragment) (e : SnapshotElement) : List SnapshotElement :=
  match parts with
  | p :: q :: ps =>
    if p.combinator = some '>' then
      if matchElement e [p] then e.children.filter (fun ch => matchElement ch (q :: ps))
      else []
    else if matchElement e parts then [e] else []
  | _ => if matchElement e parts then [e] else []

mutual
/-- The `search_recursive` closure of `find_by_selector` (query.py:498)
on one node: collect this node's hits, then traverse the children. -/
def searchSelE (parts : List Fragment) : SnapshotElement → List SnapshotElement
  | .mk r f n cs =>
    selHits parts (SnapshotElement.mk r f n cs) ++ searchSelL parts cs

def searchSelL (parts : List Fragment) : List SnapshotElement → List SnapshotElement
  | [] => []
  | e :: rest => searchSelE parts e ++ searchSelL parts rest
end

/-- `SnapshotQuery.find_by_selector` (query.py:391). -/
def findBySelector (selector : String) (t : List SnapshotElement) :
    List SnapshotElement :=
  let parts := parseSelector selector
  if parts.isEmpty then [] else searchSelL parts t

/-! ## Spec-side reference semantics for descendant combinators

`specMatchFragments` follows the specification's words for claim C1: "an
element matches fragment *i* if it matches fragment *i*'s own constraints
AND at least one of its descendants (searched at any depth, depth-first)
matches the remainder of the selector recursively", with the direct-child
combinator restricted to direct children. -/

/-- Spec-side reference rule for claim C1: an element matches a fragment
sequence iff it satisfies the head fragment's own constraints AND, when
fragments remain, the combinator is honoured — for the descendant
combinator at least one of its descendants, at any depth (the pre-order
of its children's subtrees), matches the remainder recursively; for the
direct-child combinator a direct child does. -/
def specMatchFragments : List Fragment → SnapshotElement → Bool
  | [], _ => true
  | sel :: rest, e =>
    checkFragment sel e &&
    (rest.isEmpty ||
      match sel.combinator with
      | some c =>
        if c = ' ' then (preorderL e.children).any (fun d => specMatchFragments rest d)
        else if c = '>' then e.children.any (fun d => specMatchFragments rest d)
        else false
      | none => false)

/-- Every fragment of the list except the last carries the direct-child
combinator `'>'` (the condition under which the inner `match_element` of
`_match_descendant` implements the spec's recursive rule). -/
def directChain : List Fragment → Bool
  | [] => true
  | [_] => true
  | g :: h :: rest => g.combinator = some '>' && directChain (h :: rest)

/-! ## Query-session state (`SnapshotQuery.__init__` fields)

The loaded tree (`self.data`) together with the lazily-built BM25 cache
(`self._bm25_index`, `self._elements_with_names`).  Every public query
operation is embedded as a state transformer returning its result and the
state after the call; only the BM25 path touches the cache. -/

structure QueryState where
  elements : List SnapshotElement
  bm25 : Option (BM25Index × List SnapshotElement)

/-- `SnapshotQuery._build_bm25_index` (query.py:159): no-op when cached,
otherwise collect the truthy-named elements in pre-order, index their
names, build. -/
def buildBm25State (lg : ℚ → ℚ) (s : QueryState) : QueryState :=
  match s.bm25 with
  | some _ => s
  | none =>
    let ews := elementsWithNamesL s.elements
    let idx := BM25Index.build lg
      (ews.foldl (fun i e => i.addDocument (e.name.getD "")) BM25Index.init)
    { s with bm25 := some (idx, ews) }

/-- `find_by_name_bm25` as a state transformer. -/
def findByNameBm25S (lg : ℚ → ℚ) (q : String) (topK : Option Nat)
    (s : QueryState) : Except String (List SnapshotElement) × QueryState :=
  let s' := buildBm25State lg s
  match s'.bm25 with
  | some (idx, ews) =>
    if ews.isEmpty then (.ok [], s')
    else
      match idx.search lg q topK with
      | .error e => (.error e, s')
      | .ok results => (.ok (results.map (fun p => ews.getD p.1 default)), s')
  | none => (.ok [], s')

/-- `find_by_name` as a state transformer (the `use_bm25` flag selects the
ranked path). -/
def findByNameS (lg : ℚ → ℚ) (nm : String) (exact useBm25 : Bool)
    (topK : Option Nat) (s : QueryState) :
    Except String (List SnapshotElement) × QueryState :=
  if useBm25 then findByNameBm25S lg nm topK s
  else (.ok (findByNameL nm exact s.elements), s)

def findByRoleS (ro : String) (s : QueryState) :
    List SnapshotElement × QueryState :=
  (findByRoleL ro s.elements, s)

def findByRefS (r : String) (s : QueryState) :
    Option SnapshotElement × QueryState :=
  (findByRefL r s.elements, s)

def findElementsWithTextS (text : String) (cs_flag : Bool) (s : QueryState) :
    List SnapshotElement × QueryState :=
  (findElementsWithText text cs_flag s.elements, s)

def findByRegexS (compile : String → Except String (String → Bool))
    (pattern field : String) (s : QueryState) :
    Except String (List SnapshotElement) × QueryState :=
  (findByRegex compile pattern field s.elements, s)

def findBySelectorS (selector : String) (s : QueryState) :
    List SnapshotElement × QueryState :=
  (findBySelector selector s.elements, s)

def findInteractiveElementsS (s : QueryState) :
    List (String × List SnapshotElement) × QueryState :=
  (findInteractiveElements s.elements, s)

def countElementsS (s : QueryState) : List (String × Nat) × QueryState :=
  (countElements s.elements, s)

def extractAllRefsS (s : QueryState) : List String × QueryState :=
  (extractAllRefsL s.elements, s)

def getElementPathS (r : String) (s : QueryState) :
    List SnapshotElement × QueryState :=
  (getElementPath r s.elements, s)

/-! ## Generic mutual induction over the tree -/

mutual
def elIndE (P : SnapshotElement → Prop) (Q : List SnapshotElement → Prop)
    (hmk : ∀ r f n cs, Q cs → P (.mk r f n cs))
    (hnil : Q []) (hcons : ∀ e rest, P e → Q rest → Q (e :: rest)) :
    (e : SnapshotElement) → P e
  | .mk r f n cs => hmk r f n cs (elIndL P Q hmk hnil hcons cs)

def elIndL (P : SnapshotElement → Prop) (Q : List SnapshotElement → Prop)
    (hmk : ∀ r f n cs, Q cs → P (.mk r f n cs))
    (hnil : Q []) (hcons : ∀ e rest, P e → Q rest → Q (e :: rest)) :
    (l : List SnapshotElement) → Q l
  | [] => hnil
  | e :: rest =>
    hcons e rest (elIndE P Q hmk hnil hcons e) (elIndL P Q hmk hnil hcons rest)
end

/-- Package of `elIndE`/`elIndL`. -/
def elInd (P : SnapshotElement → Prop) (Q : List SnapshotElement → Prop)
    (hmk : ∀ r f n cs, Q cs → P (.mk r f n cs))
    (hnil : Q []) (hcons : ∀ e rest, P e → Q rest → Q (e :: rest)) :
    (∀ e, P e) ∧ (∀ l, Q l) :=
  ⟨fun e => elIndE P Q hmk hnil hcons e, fun l => elIndL P Q hmk hnil hcons l⟩

/-! ## Claim C10: attribute clauses with an unknown attribute name -/

/-- A single-fragment part list that matches every element collects every
node in pre-order. -/
theorem searchSel_single_all (p : Fragment)
    (hp : ∀ e, matchElement e [p] = true) :
    (∀ e, searchSelE [p] e = preorderE e) ∧
    (∀ t, searchSelL [p] t = preorderL t) :=
  elInd (fun e => searchSelE [p] e = preorderE e)
    (fun t => searchSelL [p] t = preorderL t)
    (fun r f n cs ih => by
      simp [searchSelE, selHits, preorderE, hp (SnapshotElement.mk r f n cs), ih])
    (by simp [searchSelL, preorderL])
    (fun e rest ih1 ih2 => by simp [searchSelL, preorderL, ih1, ih2])

theorem checkFragment_unknown_attr (a v : String) (e : SnapshotElement)
    (h1 : a ≠ "name") (h2 : a ≠ "role") (h3 : a ≠ "ref") :
    checkFragment ⟨none, none, [(a, v)], none⟩ e = true := by
  simp [checkFragment, h1, h2, h3]

/-- **C10.** A selector fragment consisting only of an attribute clause
with an attribute name outside `name`/`role`/`ref` places no constraint:
the clause is skipped, and `find_by_selector "[foo=bar]"` returns every
element of the tree in pre-order. -/
theorem spec_c10_unknown_attribute :
    (∀ t : List SnapshotElement, findBySelector "[foo=bar]" t = preorderL t) ∧
    (∀ (a v : String) (e : SnapshotElement),
      a ≠ "name" → a ≠ "role" → a ≠ "ref" →
      checkFragment ⟨none, none, [(a, v)], none⟩ e = true) := by
  constructor
  · intro t
    have hparse : parseSelector "[foo=bar]" =
        [⟨none, none, [("foo", "bar")], none⟩] := rfl
    have hp : ∀ e, matchElement e [⟨none, none, [("foo", "bar")], none⟩] = true := by
      intro e
      cases e with
      | mk r f n cs =>
        simp [matchElement, checkFragment]
    have := (searchSel_single_all _ hp).2 t
    simp [findBySelector, hparse, this]
  · exact fun a v e h1 h2 h3 => checkFragment_unknown_attr a v e h1 h2 h3

/-- Concrete sample nodes shared by several witnesses and
counterexamples. -/
def sampleLeafC : SnapshotElement := .mk "c" "r3" none []

def sampleMidB : SnapshotElement := .mk "b" "r2" none [sampleLeafC]

def sampleRootA : SnapshotElement := .mk "a" "r1" none [sampleMidB]

theorem spec_c10_unknown_attribute_witness :
    findBySelector "[foo=bar]" [sampleRootA] = preorderL [sampleRootA] ∧
    checkFragment ⟨none, none, [("foo", "bar")], none⟩ sampleRootA = true :=
  ⟨spec_c10_unknown_attribute.1 [sampleRootA],
   spec_c10_unknown_attribute.2 "foo" "bar" sampleRootA
     (by decide) (by decide) (by decide)⟩

/-! ## Claim C2: tokenizer chunk rule -/

/-- **C2, counterexample.**  The claim says a mixed chunk containing both
CJK and non-CJK characters is emitted as one whole term; the code's
`re.match(r'[一-鿿]+', word)` only inspects the *start* of the chunk,
so the mixed chunk `中a` is split into single characters. -/
theorem spec_c2_counterexample :
    pyTokenizeText "中a" = ["中", "a"] ∧ pyTokenizeText "中a" ≠ ["中a"] :=
  ⟨by decide, by decide⟩

/-- The amended C2 rule, stated in the spec's own vocabulary: lower-case,
replace every character that is neither a word character nor whitespace
by a separator, split on whitespace, and emit a chunk per character
exactly when the chunk *begins* with a CJK ideograph (a chunk beginning
with a non-CJK character is emitted whole, even if it contains CJK
characters); no empty terms are ever produced. -/
def specTokenizeCJKStart (text : String) : List String :=
  let separated := (pyLower text).toList.map
    (fun c => if isPyWordChar c || isPySpace c then c else ' ')
  (splitWs separated).flatMap (fun chunk =>
    if isCJK (chunk.headD ' ') then chunk.map (fun ch => String.mk [ch])
    else [String.mk chunk])

theorem isCJK_isPyWordChar {c : Char} (h : isCJK c = true) :
    isPyWordChar c = true := by
  simp [isPyWordChar, h]

theorem dropWhile_of_all_neg {p : Char → Bool} :
    ∀ l : List Char, (∀ c ∈ l, p c = false) → l.dropWhile p = l
  | [], _ => rfl
  | c :: t, h => by simp [List.dropWhile, h c (by simp)]

theorem pyStripChars_of_all_nonspace (l : List Char)
    (h : ∀ c ∈ l, isPySpace c = false) : pyStripChars l = l := by
  unfold pyStripChars
  rw [dropWhile_of_all_neg l h,
    dropWhile_of_all_neg l.reverse (fun c hc => h c (List.mem_reverse.mp hc)),
    List.reverse_reverse]

/-- Every chunk produced by `splitWs` is nonempty and whitespace-free. -/
theorem splitWsAux_chunks :
    ∀ (cs acc : List Char), (∀ c ∈ acc, isPySpace c = false) →
      ∀ w ∈ splitWsAux cs acc, w ≠ [] ∧ ∀ c ∈ w, isPySpace c = false := by
  intro cs
  induction cs with
  | nil =>
    intro acc hacc w hw
    match acc with
    | [] => simp [splitWsAux] at hw
    | a :: as =>
      simp [splitWsAux] at hw
      subst hw
      exact ⟨by simp, fun c hc => hacc c (by simp at hc ⊢; tauto)⟩
  | cons c rest ih =>
    intro acc hacc w hw
    by_cases hsp : isPySpace c
    · match acc with
      | [] =>
        simp only [splitWsAux, hsp, if_pos, List.isEmpty_nil, if_true] at hw
        exact ih [] (by simp) w hw
      | a :: as =>
        simp [splitWsAux, hsp] at hw
        rcases hw with hw | hw
        · subst hw
          exact ⟨by simp, fun x hx => hacc x (by simp at hx ⊢; tauto)⟩
        · exact ih [] (by simp) w hw
    · have hstep : splitWsAux (c :: rest) acc = splitWsAux rest (c :: acc) := by
        simp [splitWsAux, hsp]
      rw [hstep] at hw
      refine ih (c :: acc) ?_ w hw
      intro x hx
      rcases List.mem_cons.mp hx with h | h
      · subst h; simpa using hsp
      · exact hacc x h

theorem splitWs_chunks (cs : List Char) :
    ∀ w ∈ splitWs cs, w ≠ [] ∧ ∀ c ∈ w, isPySpace c = false :=
  splitWsAux_chunks cs [] (by simp)

theorem flatMap_congr_mem {α β : Type} (f g : α → List β) :
    ∀ l : List α, (∀ a ∈ l, f a = g a) → l.flatMap f = l.flatMap g
  | [], _ => rfl
  | a :: t, h => by
    simp only [List.flatMap_cons, h a (by simp),
      flatMap_congr_mem f g t (fun x hx => h x (by simp [hx]))]

theorem string_mk_eq_empty_iff (w : List Char) : String.mk w = "" ↔ w = [] := by
  constructor
  · intro h
    have : (String.mk w).data = ("" : String).data := by rw [h]
    simpa using this
  · intro h; subst h; rfl

/-- **C2, amended.**  The tokenizer lower-cases, replaces non-word
non-whitespace characters with separators, splits on whitespace, and
emits one term per character precisely when the chunk *begins* with a CJK
ideograph (not when it consists entirely of CJK ideographs); all other
chunks — including mixed chunks that begin with a non-CJK character — are
emitted whole, and no empty terms are produced. -/
theorem spec_c2_tokenizer_amended (text : String) :
    pyTokenizeText text = specTokenizeCJKStart text ∧
    ∀ t ∈ pyTokenizeText text, t ≠ "" := by
  have hclean : ((pyLower text).toList.map
      (fun c => if isPyWordChar c || isPySpace c || isCJK c then c else ' ')) =
      ((pyLower text).toList.map
      (fun c => if isPyWordChar c || isPySpace c then c else ' ')) := by
    refine List.map_congr_left (fun c _ => ?_)
    by_cases h : isCJK c
    · simp [isCJK_isPyWordChar h, h]
    · simp [h]
  have hchunks := splitWs_chunks ((pyLower text).toList.map
      (fun c => if isPyWordChar c || isPySpace c || isCJK c then c else ' '))
  have htok : ∀ t ∈ (splitWs ((pyLower text).toList.map
      (fun c => if isPyWordChar c || isPySpace c || isCJK c then c else ' '))).flatMap
        tokenizeChunk, pyStrip t ≠ "" := by
    intro t ht
    rcases List.mem_flatMap.mp ht with ⟨w, hw, htw⟩
    rcases hchunks w hw with ⟨hne, hns⟩
    match w, hne with
    | c :: tl, _ =>
      by_cases hc : isCJK c
      · have htw' : t ∈ (c :: tl).map (fun ch => String.mk [ch]) := by
          simpa [tokenizeChunk, hc] using htw
        rcases List.mem_map.mp htw' with ⟨ch, hch, hteq⟩
        subst hteq
        have hstrip : pyStripChars [ch] = [ch] :=
          pyStripChars_of_all_nonspace [ch]
            (by intro x hx; simp at hx; rw [hx]; exact hns ch hch)
        simp [pyStrip, hstrip, string_mk_eq_empty_iff]
      · have htw' : t = String.mk (c :: tl) := by
          simpa [tokenizeChunk, hc] using htw
        subst htw'
        have hstrip : pyStripChars (c :: tl) = c :: tl :=
          pyStripChars_of_all_nonspace _ hns
        simp [pyStrip, hstrip, string_mk_eq_empty_iff]
  have hfilter : pyTokenizeText text = (splitWs ((pyLower text).toList.map
      (fun c => if isPyWordChar c || isPySpace c || isCJK c then c else ' '))).flatMap
        tokenizeChunk := by
    unfold pyTokenizeText
    exact List.filter_eq_self.mpr (fun t ht => by
      simpa using htok t ht)
  constructor
  · rw [hfilter]
    unfold specTokenizeCJKStart
    rw [← hclean]
    refine flatMap_congr_mem _ _ _ (fun w hw => ?_)
    rcases hchunks w hw with ⟨hne, _⟩
    match w, hne with
    | c :: tl, _ => simp [tokenizeChunk]
  · intro t ht
    rw [hfilter] at ht
    intro h
    exact htok t ht (by simp [h, pyStrip, pyStripChars])

/-- Amended-C2 witness at a concrete input. -/
theorem spec_c2_tokenizer_amended_witness :
    pyTokenizeText "Hello, 世界a test" = specTokenizeCJKStart "Hello, 世界a test" :=
  (spec_c2_tokenizer_amended "Hello, 世界a test").1

/-! ## Claim C4: attribute operators -/

def exButtonAbc : SnapshotElement := .mk "button" "r9" (some "abc") []

/-- **C4, counterexample.**  The claim says the bare `=` operator tests
exact string equality for every value, including values beginning with
`^`.  But the stored value of `[name=^ab]` is `^ab`, which the matcher
re-interprets as a prefix test: the element named `abc` matches even
though `"abc" ≠ "^ab"`. -/
theorem spec_c4_counterexample :
    findBySelector "[name=^ab]" [exButtonAbc] = [exButtonAbc] ∧
    exButtonAbc.name = some "abc" ∧ ("abc" : String) ≠ "^ab" :=
  ⟨rfl, rfl, by decide⟩

theorem list_beq_eq_string_beq (s v : String) :
    (s.toList == v.toList) = (s == v) := by
  by_cases h : s = v
  · subst h; simp
  · have h2 : s.data ≠ v.data := fun hl => h (String.ext hl)
    simp [h, h2]

theorem attrCharsMatch_exact (st iv : List Char)
    (h1 : (listIsPre ['*'] st && listIsPre ['*'] st.reverse) = false)
    (h2 : listIsPre ['^'] st = false)
    (h3 : listIsPre ['$'] st.reverse = false) :
    attrCharsMatch st iv = (iv == st) := by
  unfold attrCharsMatch
  rw [if_neg (by simp [h1] : ¬(listIsPre ['*'] st && listIsPre ['*'] st.reverse) = true),
    if_neg (by simp [h2] : ¬listIsPre ['^'] st = true),
    if_neg (by simp [h3] : ¬listIsPre ['$'] st.reverse = true)]

/-- **C4, amended.**  How `_parse_attributes` stores each operator and
how `match_element` re-reads the sentinels: `*=` always tests
containment, `^=` always tests prefix, `$=` tests suffix unless the value
itself begins with `^`, and the bare `=` tests exact equality only for
values that are not `*`-wrapped, do not begin with `^`, and do not end
with `$` (such values are re-interpreted as containment / prefix /
suffix tests). -/
theorem spec_c4_attribute_operators (v s : String) :
    ((strStarts v "*" && strEnds v "*") = false → strStarts v "^" = false →
      strEnds v "$" = false →
      attrValueMatch (applyOp none v) s = (s == v)) ∧
    attrValueMatch (applyOp (some '*') v) s = strContains s v ∧
    attrValueMatch (applyOp (some '^') v) s = strStarts s v ∧
    (strStarts v "^" = false →
      attrValueMatch (applyOp (some '$') v) s = strEnds s v) := by
  refine ⟨?_, ?_, ?_, ?_⟩
  · intro h1 h2 h3
    have hst : attrValueMatch (applyOp none v) s = attrCharsMatch v.toList s.toList := rfl
    rw [hst, attrCharsMatch_exact v.toList s.toList h1 h2 h3]
    exact list_beq_eq_string_beq s v
  · have hst : attrValueMatch (applyOp (some '*') v) s =
        attrCharsMatch ('*' :: (v.toList ++ ['*'])) s.toList := rfl
    rw [hst]
    unfold attrCharsMatch
    rw [if_pos]
    · simp [strContains, List.dropLast_concat]
    · simp [listIsPre]
  · have hst : attrValueMatch (applyOp (some '^') v) s =
        attrCharsMatch ('^' :: v.toList) s.toList := rfl
    rw [hst]
    unfold attrCharsMatch
    rw [if_neg, if_pos]
    · simp [strStarts]
    · simp [listIsPre]
    · simp [listIsPre]
  · intro h2
    have hst : attrValueMatch (applyOp (some '$') v) s =
        attrCharsMatch (v.toList ++ ['$']) s.toList := rfl
    have h2l : listIsPre ['^'] v.toList = false := h2
    have hpre : listIsPre ['^'] (v.toList ++ ['$']) = false := by
      rcases hv : v.toList with _ | ⟨c, t⟩
      · simp [listIsPre]
      · have h2c : listIsPre ['^'] (c :: t) = false := by rw [← hv]; exact h2l
        simp only [listIsPre, List.cons_append] at h2c ⊢
        simpa using h2c
    rw [hst]
    unfold attrCharsMatch
    have c1 : ¬((listIsPre ['*'] (v.toList ++ ['$']) &&
        listIsPre ['*'] (v.toList ++ ['$']).reverse) = true) := by
      simp [listIsPre]
    have c3 : listIsPre ['$'] (v.toList ++ ['$']).reverse = true := by
      simp [listIsPre]
    rw [if_neg c1, if_neg (by simpa using hpre), if_pos c3]
    simp [strEnds, List.dropLast_concat]

/-- Amended-C4 witness at concrete inputs. -/
theorem spec_c4_attribute_operators_witness :
    attrValueMatch (applyOp none "ab") "ab" = (("ab" : String) == "ab") ∧
    attrValueMatch (applyOp (some '$') "ab") "xab" = strEnds "xab" "ab" :=
  ⟨(spec_c4_attribute_operators "ab" "ab").1 (by decide) (by decide) (by decide),
   (spec_c4_attribute_operators "ab" "xab").2.2.2 (by decide)⟩

/-! ## Claim C5: `find_by_regex` argument errors -/

/-- **C5, counterexample.**  The claim says an invalid `field` argument
fails immediately for every tree, including the empty tree.  But the
field check happens inside the per-node traversal, so on the empty tree
`find_by_regex` returns `ok []` and never raises. -/
theorem spec_c5_counterexample :
    findByRegex (fun _ => .ok (fun _ => true)) "pat" "bogus" [] =
      .ok ([] : List SnapshotElement) ∧
    ∀ msg, findByRegex (fun _ => .ok (fun _ => true)) "pat" "bogus" [] ≠
      Except.error msg :=
  ⟨rfl, fun msg h => by simp [findByRegex, findByRegexL] at h⟩

/-- **C5, amended.**  An invalid regex pattern fails the call before any
traversal, for every tree and field.  An invalid field name raises only
once the traversal visits a node: on a non-empty tree the call fails at
the first visited element, but on the empty tree it silently returns the
empty list.  In both cases the session state is left unchanged. -/
theorem spec_c5_regex_errors
    (compile : String → Except String (String → Bool))
    (pattern field : String) (t : List SnapshotElement) :
    (∀ err, compile pattern = .error err →
      findByRegex compile pattern field t = .error ("invalid regex: " ++ err)) ∧
    (field ≠ "name" → field ≠ "role" → field ≠ "ref" →
      ∀ rx, compile pattern = .ok rx →
        (t = [] → findByRegex compile pattern field t = .ok []) ∧
        (t ≠ [] → findByRegex compile pattern field t =
          .error ("unsupported field: " ++ field))) ∧
    (∀ s : QueryState, (findByRegexS compile pattern field s).2 = s) := by
  refine ⟨?_, ?_, fun _ => rfl⟩
  · intro err herr
    simp [findByRegex, herr]
  · intro h1 h2 h3 rx hrx
    constructor
    · intro ht; subst ht; simp [findByRegex, hrx, findByRegexL]
    · intro ht
      match t, ht with
      | .mk r f n cs :: rest, _ =>
        have he : findByRegexE rx field (.mk r f n cs) =
            .error ("unsupported field: " ++ field) := by
          unfold findByRegexE
          rw [if_neg h1, if_neg h2, if_neg h3]
          rfl
        simp [findByRegex, hrx, findByRegexL, he]
        rfl

/-- Amended-C5 witness: a failing compile, and an invalid field on a
non-empty and on an empty tree. -/
theorem spec_c5_regex_errors_witness :
    findByRegex (fun _ => .error "bad") "x" "name" [] =
      .error ("invalid regex: " ++ "bad") ∧
    findByRegex (fun _ => .ok (fun _ => true)) "x" "bogus" [exButtonAbc] =
      .error ("unsupported field: " ++ "bogus") ∧
    findByRegex (fun _ => .ok (fun _ => true)) "x" "bogus" [] = .ok [] :=
  ⟨(spec_c5_regex_errors (fun _ => .error "bad") "x" "name" []).1 "bad" rfl,
   ((spec_c5_regex_errors (fun _ => .ok (fun _ => true)) "x" "bogus"
      [exButtonAbc]).2.1 (by decide) (by decide) (by decide) _ rfl).2
      (by simp),
   ((spec_c5_regex_errors (fun _ => .ok (fun _ => true)) "x" "bogus" []).2.1
      (by decide) (by decide) (by decide) _ rfl).1 rfl⟩

/-! ## Claim C9: no query operation mutates the tree -/

theorem buildBm25State_elements (lg : ℚ → ℚ) (s : QueryState) :
    (buildBm25State lg s).elements = s.elements := by
  unfold buildBm25State
  cases s.bm25 <;> rfl

theorem findByNameBm25S_elements (lg : ℚ → ℚ) (q : String) (topK : Option Nat)
    (s : QueryState) : (findByNameBm25S lg q topK s).2.elements = s.elements := by
  unfold findByNameBm25S
  rcases hb : (buildBm25State lg s).bm25 with _ | ⟨idx, ews⟩
  · simpa [hb] using buildBm25State_elements lg s
  · by_cases he : ews.isEmpty
    · simpa [hb, he] using buildBm25State_elements lg s
    · rcases hs : idx.search lg q topK with err | results <;>
        simpa [hb, he, hs] using buildBm25State_elements lg s

/-- **C9.**  Every public query operation leaves the loaded tree — and
with it every element's `role`, `ref`, `name` and `children` — unchanged:
the elements of the session state after any call equal the elements
before it (the BM25 path only fills the separate lazy cache). -/
theorem spec_c9_tree_immutable (lg : ℚ → ℚ) (s : QueryState)
    (nm ro r text pattern selector field : String)
    (exact useBm25 cs_flag : Bool) (topK : Option Nat)
    (compile : String → Except String (String → Bool)) :
    (findByNameS lg nm exact useBm25 topK s).2.elements = s.elements ∧
    (findByNameBm25S lg nm topK s).2.elements = s.elements ∧
    (findByRoleS ro s).2.elements = s.elements ∧
    (findByRefS r s).2.elements = s.elements ∧
    (findElementsWithTextS text cs_flag s).2.elements = s.elements ∧
    (findByRegexS compile pattern field s).2.elements = s.elements ∧
    (findBySelectorS selector s).2.elements = s.elements ∧
    (findInteractiveElementsS s).2.elements = s.elements ∧
    (countElementsS s).2.elements = s.elements ∧
    (extractAllRefsS s).2.elements = s.elements ∧
    (getElementPathS r s).2.elements = s.elements := by
  refine ⟨?_, findByNameBm25S_elements lg nm topK s, rfl, rfl, rfl, rfl, rfl,
    rfl, rfl, rfl, rfl⟩
  unfold findByNameS
  by_cases hb : useBm25
  · simpa [hb] using findByNameBm25S_elements lg nm topK s
  · simp [hb]

/-! ## Claim C3: `#ref` selectors versus `find_by_ref` -/

def dupFirst : SnapshotElement := .mk "t" "x" none []

def dupSecond : SnapshotElement := .mk "u" "x" none []

/-- **C3, counterexample.**  The claim says `find_by_selector("#" + r)`
returns *at most one* element even when several elements share a ref.
With two roots both carrying ref `x`, the selector returns both while
`find_by_ref` returns only the first. -/
theorem spec_c3_counterexample :
    findBySelector "#x" [dupFirst, dupSecond] = [dupFirst, dupSecond] ∧
    (findBySelector "#x" [dupFirst, dupSecond]).length = 2 ∧
    findByRefL "x" [dupFirst, dupSecond] = some dupFirst :=
  ⟨rfl, rfl, rfl⟩

/-- `find_by_ref` is the first pre-order hit. -/
theorem findByRef_eq_find (r : String) :
    (∀ e, findByRefE r e = (preorderE e).find? (fun x => x.ref == r)) ∧
    (∀ t, findByRefL r t = (preorderL t).find? (fun x => x.ref == r)) :=
  elInd (fun e => findByRefE r e = (preorderE e).find? (fun x => x.ref == r))
    (fun t => findByRefL r t = (preorderL t).find? (fun x => x.ref == r))
    (fun ro f n cs ih => by
      show findByRefE r (.mk ro f n cs) =
        (preorderE (.mk ro f n cs)).find? (fun x => x.ref == r)
      have ih' : findByRefL r cs = (preorderL cs).find? (fun x => x.ref == r) := ih
      by_cases h : f = r
      · simp [findByRefE, preorderE, List.find?_cons, SnapshotElement.ref, h]
      · have hbeq : ((f : String) == r) = false := by simp [h]
        simp [findByRefE, preorderE, List.find?_cons, SnapshotElement.ref, h,
          hbeq, ih'])
    (by simp [findByRefL, preorderL])
    (fun e rest ih1 ih2 => by
      have ih1' : findByRefE r e = (preorderE e).find? (fun x => x.ref == r) := ih1
      have ih2' : findByRefL r rest =
        (preorderL rest).find? (fun x => x.ref == r) := ih2
      show findByRefL r (e :: rest) =
        (preorderL (e :: rest)).find? (fun x => x.ref == r)
      have hl : findByRefL r (e :: rest) =
          match findByRefE r e with
          | some x => some x
          | none => findByRefL r rest := rfl
      have hp : preorderL (e :: rest) = preorderE e ++ preorderL rest := rfl
      rw [hl, hp, List.find?_append, ← ih1', ← ih2']
      cases findByRefE r e <;> simp [Option.or])

/-- A single-fragment selector collects exactly the pre-order nodes
satisfying the fragment. -/
theorem searchSel_single_filter (p : Fragment) :
    (∀ e, searchSelE [p] e = (preorderE e).filter (fun x => matchElement x [p])) ∧
    (∀ t, searchSelL [p] t = (preorderL t).filter (fun x => matchElement x [p])) :=
  elInd _ _
    (fun ro f n cs ih => by
      by_cases h : matchElement (.mk ro f n cs) [p] <;>
        simp [searchSelE, selHits, preorderE, h, ih])
    (by simp [searchSelL, preorderL])
    (fun e rest ih1 ih2 => by simp [searchSelL, preorderL, ih1, ih2])

theorem matchElement_single_id (r : String) (e : SnapshotElement) :
    matchElement e [⟨none, some r, [], none⟩] = (e.ref == r) := by
  cases e with
  | mk ro f n cs =>
    by_cases hd : (SnapshotElement.mk ro f n cs).ref = r <;>
      simp [matchElement, checkFragment, hd]

/-- `selTokensAux` in word-state on a clean run of characters yields one
token. -/
theorem selTokensAux_word (cs : List Char) :
    ∀ acc, (∀ c ∈ cs, isPySpace c = false ∧ c ≠ '>') →
      selTokensAux cs (some (1, acc)) = [acc.reverse ++ cs] := by
  induction cs with
  | nil => intro acc _; simp [selTokensAux]
  | cons c rest ih =>
    intro acc h
    have hc := h c (by simp)
    rw [selTokensAux, if_pos (by simp [hc.1, hc.2])]
    rw [ih (c :: acc) (fun x hx => h x (by simp [hx]))]
    simp

theorem selTokens_single_word (c : Char) (cs : List Char)
    (h : ∀ x ∈ c :: cs, isPySpace x = false ∧ x ≠ '>') :
    selTokens (c :: cs) = [c :: cs] := by
  have hc := h c (by simp)
  rw [selTokens, selTokensAux, if_neg (by simp [hc.1]), if_neg (by simp [hc.2])]
  rw [selTokensAux_word cs [c] (fun x hx => h x (by simp [hx]))]
  simp

/-- Parsing `"#" ++ r` for a ref without whitespace or `>` yields the
single id fragment. -/
theorem parseSelector_id (r : String)
    (hr : ∀ c ∈ r.toList, isPySpace c = false ∧ c ≠ '>') :
    parseSelector ("#" ++ r) = [⟨none, some r, [], none⟩] := by
  have hgood : ∀ x ∈ '#' :: r.toList, isPySpace x = false ∧ x ≠ '>' := by
    intro x hx
    rcases List.mem_cons.mp hx with h | h
    · subst h; exact ⟨by decide, by decide⟩
    · exact hr x h
  have hstrip : pyStripChars ('#' :: r.toList) = '#' :: r.toList :=
    pyStripChars_of_all_nonspace _ (fun c hc => (hgood c hc).1)
  have htoks : selTokens ('#' :: r.toList) = ['#' :: r.toList] :=
    selTokens_single_word '#' r.toList hgood
  have hfrag : parseFragmentToken ('#' :: r.toList) =
      some ⟨none, some r, [], none⟩ := by
    unfold parseFragmentToken
    rw [if_neg]
    · rfl
    · simp [List.takeWhile, show isAsciiAlnum '#' = false from by decide]
  unfold parseSelector
  rw [show ("#" ++ r).toList = '#' :: r.toList from rfl, hstrip]
  simp only [List.isEmpty_cons, Bool.false_eq_true, if_false, htoks]
  rw [parseSelParts]
  simp only [hstrip]
  rw [if_neg (by simp), if_neg (by simp), hfrag]
  rfl

theorem length_le_one_eq_head_toList {α : Type} (l : List α)
    (h : l.length ≤ 1) : l = l.head?.toList := by
  match l with
  | [] => rfl
  | [a] => rfl
  | a :: b :: rest => simp at h

/-- **C3, amended.**  For a ref `r` containing no whitespace and no `>`,
`find_by_selector("#" + r)` returns *all* pre-order elements whose ref
equals `r` — several when refs are duplicated — and only when at most one
element carries `r` does it coincide with `find_by_ref(r)` as a
singleton-or-empty list. -/
theorem spec_c3_id_selector (t : List SnapshotElement) (r : String)
    (hr : ∀ c ∈ r.toList, isPySpace c = false ∧ c ≠ '>') :
    findBySelector ("#" ++ r) t = (preorderL t).filter (fun e => e.ref == r) ∧
    ((preorderL t).countP (fun e => e.ref == r) ≤ 1 →
      findBySelector ("#" ++ r) t = (findByRefL r t).toList) := by
  have hsel : findBySelector ("#" ++ r) t =
      (preorderL t).filter (fun e => e.ref == r) := by
    rw [findBySelector, parseSelector_id r hr]
    rw [if_neg (by simp)]
    rw [(searchSel_single_filter _).2 t]
    exact List.filter_congr (fun e _ => matchElement_single_id r e)
  refine ⟨hsel, fun hcount => ?_⟩
  rw [hsel, (findByRef_eq_find r).2 t, ← List.filter_head? _ (preorderL t)]
  exact length_le_one_eq_head_toList _
    (by rw [← List.countP_eq_length_filter]; exact hcount)

/-- Amended-C3 witness: a duplicated-ref tree (filter view) and a
unique-ref tree (singleton view). -/
theorem spec_c3_id_selector_witness :
    findBySelector ("#" ++ "x") [dupFirst, dupSecond] =
      (preorderL [dupFirst, dupSecond]).filter (fun e => e.ref == "x") ∧
    findBySelector ("#" ++ "r2") [sampleRootA] =
      (findByRefL "r2" [sampleRootA]).toList :=
  ⟨(spec_c3_id_selector [dupFirst, dupSecond] "x" (by decide)).1,
   (spec_c3_id_selector [sampleRootA] "r2" (by decide)).2 (by decide)⟩

/-! ## Claim C6: reference lookup and path extraction -/

theorem getLast?_cons_of_ne_nil {α : Type} (e : α) {q : List α} (h : q ≠ []) :
    (e :: q).getLast? = q.getLast? := by
  match q, h with
  | b :: l, _ => exact List.getLast?_cons_cons

/-- Joint characterization of `find_by_ref`, the depth of the first
pre-order hit, and `get_element_path`'s accumulator recursion: either all
three find nothing, or they agree on one element `x` with `x.ref = r`,
the path extends the accumulator by a nonempty chain ending in `x`, and
the chain's length is the hit's depth plus one. -/
theorem pathSpec (r : String) :
    (∀ e, ∀ cur,
      (findByRefE r e = none ∧ findDepthE r e = none ∧ pathE r e cur = none) ∨
      (∃ x d q, findByRefE r e = some x ∧ x.ref = r ∧
        findDepthE r e = some d ∧ pathE r e cur = some (cur ++ q) ∧
        q ≠ [] ∧ q.getLast? = some x ∧ q.length = d + 1)) ∧
    (∀ l, ∀ cur,
      (findByRefL r l = none ∧ findDepthL r l = none ∧ pathL r l cur = none) ∨
      (∃ x d q, findByRefL r l = some x ∧ x.ref = r ∧
        findDepthL r l = some d ∧ pathL r l cur = some (cur ++ q) ∧
        q ≠ [] ∧ q.getLast? = some x ∧ q.length = d + 1)) :=
  elInd _ _
    (fun ro f n cs ih => by
      intro cur
      have hfr : findByRefE r (.mk ro f n cs) =
          if f = r then some (.mk ro f n cs) else findByRefL r cs := rfl
      have hfd : findDepthE r (.mk ro f n cs) =
          if f = r then some 0 else (findDepthL r cs).map (· + 1) := rfl
      have hpe : pathE r (.mk ro f n cs) cur =
          if f = r then some (cur ++ [.mk ro f n cs])
          else pathL r cs (cur ++ [.mk ro f n cs]) := rfl
      by_cases h : f = r
      · right
        refine ⟨.mk ro f n cs, 0, [.mk ro f n cs], ?_, h, ?_, ?_, by simp, by simp, by simp⟩
        · rw [hfr, if_pos h]
        · rw [hfd, if_pos h]
        · rw [hpe, if_pos h]
      · rcases ih (cur ++ [SnapshotElement.mk ro f n cs]) with ⟨h1, h2, h3⟩ |
          ⟨x, d, q, h1, h2, h3, h4, h5, h6, h7⟩
        · left
          refine ⟨?_, ?_, ?_⟩
          · rw [hfr, if_neg h]; exact h1
          · rw [hfd, if_neg h, h2]; rfl
          · rw [hpe, if_neg h]; exact h3
        · right
          refine ⟨x, d + 1, .mk ro f n cs :: q, ?_, h2, ?_, ?_, by simp, ?_, ?_⟩
          · rw [hfr, if_neg h]; exact h1
          · rw [hfd, if_neg h, h3]; rfl
          · rw [hpe, if_neg h, h4]; simp
          · rw [getLast?_cons_of_ne_nil _ h5]; exact h6
          · simp [h7])
    (fun cur => .inl ⟨rfl, rfl, rfl⟩)
    (fun e rest ih1 ih2 => by
      intro cur
      have hfr : findByRefL r (e :: rest) =
          match findByRefE r e with
          | some x => some x
          | none => findByRefL r rest := rfl
      have hfd : findDepthL r (e :: rest) =
          match findDepthE r e with
          | some d => some d
          | none => findDepthL r rest := rfl
      have hpl : pathL r (e :: rest) cur =
          match pathE r e cur with
          | some p => some p
          | none => pathL r rest cur := rfl
      rcases ih1 cur with ⟨h1, h2, h3⟩ | ⟨x, d, q, h1, h2, h3, h4, h5, h6, h7⟩
      · rcases ih2 cur with ⟨g1, g2, g3⟩ | ⟨x, d, q, g1, g2, g3, g4, g5, g6, g7⟩
        · left
          refine ⟨?_, ?_, ?_⟩
          · rw [hfr, h1]; exact g1
          · rw [hfd, h2]; exact g2
          · rw [hpl, h3]; exact g3
        · right
          refine ⟨x, d, q, ?_, g2, ?_, ?_, g5, g6, g7⟩
          · rw [hfr, h1]; exact g1
          · rw [hfd, h2]; exact g3
          · rw [hpl, h3]; exact g4
      · right
        refine ⟨x, d, q, ?_, h2, ?_, ?_, h5, h6, h7⟩
        · rw [hfr, h1]
        · rw [hfd, h3]
        · rw [hpl, h4])

/-- **C6.**  For a ref present in the tree, `find_by_ref` returns an
element with that ref — the first pre-order hit — and `get_element_path`
ends in that same element with length equal to its depth (`findDepthL`)
plus one; for an absent ref, `find_by_ref` returns nothing and
`get_element_path` is empty. -/
theorem spec_c6_ref_and_path (t : List SnapshotElement) (r : String) :
    ((∃ e ∈ preorderL t, e.ref = r) →
      ∃ x, findByRefL r t = some x ∧ x.ref = r ∧
        findByRefL r t = (preorderL t).find? (fun e => e.ref == r) ∧
        getElementPath r t ≠ [] ∧
        (getElementPath r t).getLast? = some x ∧
        ∃ d, findDepthL r t = some d ∧ (getElementPath r t).length = d + 1) ∧
    ((¬ ∃ e ∈ preorderL t, e.ref = r) →
      findByRefL r t = none ∧ getElementPath r t = []) := by
  have hfind := (findByRef_eq_find r).2 t
  constructor
  · intro ⟨e, he, her⟩
    rcases (pathSpec r).2 t [] with ⟨h1, _, _⟩ |
      ⟨x, d, q, h1, h2, h3, h4, h5, h6, h7⟩
    · exfalso
      have : (preorderL t).find? (fun e => e.ref == r) = none := by
        rw [← hfind]; exact h1
      have hex : ∃ x ∈ preorderL t, (fun e => e.ref == r) x := ⟨e, he, by simp [her]⟩
      rw [← List.find?_isSome] at hex
      rw [this] at hex
      simp at hex
    · refine ⟨x, h1, h2, hfind, ?_, ?_, d, h3, ?_⟩ <;>
        simp [getElementPath, h4, h5, h6, h7]
  · intro hno
    rcases (pathSpec r).2 t [] with ⟨h1, _, h3⟩ |
      ⟨x, d, q, h1, h2, h3, h4, h5, h6, h7⟩
    · exact ⟨h1, by simp [getElementPath, h3]⟩
    · exfalso
      apply hno
      refine ⟨x, ?_, h2⟩
      have := hfind
      rw [h1] at this
      exact List.mem_of_find?_eq_some this.symm

/-- C6 witness: present and absent refs on a concrete tree. -/
theorem spec_c6_ref_and_path_witness :
    (∃ x, findByRefL "r3" [sampleRootA] = some x ∧ x.ref = "r3" ∧
      findByRefL "r3" [sampleRootA] =
        (preorderL [sampleRootA]).find? (fun e => e.ref == "r3") ∧
      getElementPath "r3" [sampleRootA] ≠ [] ∧
      (getElementPath "r3" [sampleRootA]).getLast? = some x ∧
      ∃ d, findDepthL "r3" [sampleRootA] = some d ∧
        (getElementPath "r3" [sampleRootA]).length = d + 1) ∧
    (findByRefL "zz" [sampleRootA] = none ∧
      getElementPath "zz" [sampleRootA] = []) :=
  ⟨(spec_c6_ref_and_path [sampleRootA] "r3").1
      ⟨sampleLeafC, by simp [preorderL, preorderE, sampleRootA, sampleMidB,
        sampleLeafC], rfl⟩,
   (spec_c6_ref_and_path [sampleRootA] "zz").2 (by
      rintro ⟨e, he, her⟩
      simp [preorderL, preorderE, sampleRootA, sampleMidB, sampleLeafC] at he
      rcases he with h | h | h <;> subst h <;> simp [SnapshotElement.ref,
        sampleRootA, sampleMidB, sampleLeafC] at her)⟩

/-! ## Claim C1: recursive descendant-combinator semantics -/

/-- **C1, counterexample.**  The spec's recursive rule says the root of
`a(b(c))` matches `"a b c"`: it satisfies fragment `a` and its descendant
`b(c)` recursively matches `"b c"`.  The code's `_match_descendant` inner
`match_element` only handles the `'>'` combinator, so the second
descendant hop always fails and `find_by_selector("a b c")` returns
nothing. -/
theorem spec_c1_counterexample :
    parseSelector "a b c" =
      [⟨some "a", none, [], some ' '⟩, ⟨some "b", none, [], some ' '⟩,
        ⟨some "c", none, [], none⟩] ∧
    specMatchFragments (parseSelector "a b c") sampleRootA = true ∧
    matchElement sampleRootA (parseSelector "a b c") = false ∧
    findBySelector "a b c" [sampleRootA] = [] ∧
    findBySelector "b c" [sampleRootA] = [sampleMidB] :=
  ⟨rfl, rfl, rfl, rfl, rfl⟩

/-- `matchElementDL` is an existential over the list. -/
theorem matchElementDL_eq_any (sels : List Fragment) :
    ∀ l, matchElementDL l sels = l.any (fun d => matchElementD d sels)
  | [] => rfl
  | e :: rest => by
    simp [matchElementDL, matchElementDL_eq_any sels rest]

/-- `_match_descendant` searches exactly the pre-order nodes of the
subtree with the inner `match_element`. -/
theorem matchDescendant_eq_any :
    (∀ e, ∀ sels, matchDescendant e sels =
      (preorderE e).any (fun d => matchElementD d sels)) ∧
    (∀ l, ∀ sels, matchDescendantL l sels =
      (preorderL l).any (fun d => matchElementD d sels)) :=
  elInd _ _
    (fun ro f n cs ih => by
      intro sels
      have h := ih sels
      simp [matchDescendant, preorderE, h])
    (fun sels => rfl)
    (fun e rest ih1 ih2 => by
      intro sels
      simp [matchDescendantL, preorderL, ih1 sels, ih2 sels])

/-- On fragment chains whose every non-final fragment is a direct-child
combinator, the inner `match_element` of `_match_descendant` coincides
with the spec's recursive rule. -/
theorem matchElementD_eq_spec :
    (∀ e, ∀ sels, directChain sels = true →
      matchElementD e sels = specMatchFragments sels e) ∧
    (∀ l, ∀ sels, directChain sels = true →
      matchElementDL l sels = l.any (fun d => specMatchFragments sels d)) :=
  elInd _ _
    (fun ro f n cs ih => by
      intro sels hd
      match sels with
      | [] => rfl
      | sel :: rest =>
        by_cases hc : checkFragment sel (.mk ro f n cs)
        · match rest with
          | [] => simp [matchElementD, specMatchFragments, hc]
          | g :: rest2 =>
            have hdc : sel.combinator = some '>' ∧ directChain (g :: rest2) = true := by
              have h0 : (decide (sel.combinator = some '>') &&
                  directChain (g :: rest2)) = true := hd
              simpa using h0
            have ihl : matchElementDL cs (g :: rest2) =
                cs.any (fun d => specMatchFragments (g :: rest2) d) :=
              ih (g :: rest2) hdc.2
            simp [matchElementD, specMatchFragments, hc, hdc.1, ihl,
              SnapshotElement.children]
        · simp [matchElementD, specMatchFragments, hc])
    (fun sels _ => rfl)
    (fun e rest ih1 ih2 => by
      intro sels hd
      simp [matchElementDL, ih1 sels hd, ih2 sels hd])

/-- A chain with a second descendant (or missing) combinator before its
last fragment kills the inner `match_element` everywhere. -/
theorem matchElementD_bad_chain :
    (∀ e, ∀ sels, directChain sels = false → matchElementD e sels = false) ∧
    (∀ l, ∀ sels, directChain sels = false → matchElementDL l sels = false) :=
  elInd _ _
    (fun ro f n cs ih => by
      intro sels hd
      match sels with
      | [] => simp [directChain] at hd
      | [sel] => simp [directChain] at hd
      | sel :: g :: rest2 =>
        have hd' : (decide (sel.combinator = some '>') &&
            directChain (g :: rest2)) = false := hd
        by_cases hc : checkFragment sel (.mk ro f n cs)
        · by_cases hcomb : sel.combinator = some '>'
          · have hbad : directChain (g :: rest2) = false := by
              simpa [hcomb] using hd'
            simp [matchElementD, hc, hcomb, ih (g :: rest2) hbad]
          · match hv : sel.combinator with
            | none => simp [matchElementD, hc, hv]
            | some c =>
              have hcc : ¬c = '>' := fun hcc => hcomb (by rw [hv, hcc])
              simp [matchElementD, hc, hv, hcc]
        · simp [matchElementD, hc])
    (fun sels _ => rfl)
    (fun e rest ih1 ih2 => by
      intro sels hd
      simp [matchElementDL, ih1 sels hd, ih2 sels hd])

/-- **C1, amended.**  For a fragment with a descendant combinator
followed by a non-empty remainder: when the remainder is connected
entirely by direct-child combinators, `match_element` implements exactly
the spec's recursive rule (the fragment's own constraints plus a
recursively matching descendant at any depth); but when the remainder
contains a further descendant combinator (or a fragment with no
combinator) before its last fragment — e.g. for `"a b c"` — the element
never matches, so the recursive rule fails for selectors with two or
more descendant combinators. -/
theorem spec_c1_descendant_rule (e : SnapshotElement) (f : Fragment)
    (rest : List Fragment) (hf : f.combinator = some ' ') (hne : rest ≠ []) :
    (directChain rest = true →
      matchElement e (f :: rest) = specMatchFragments (f :: rest) e) ∧
    (directChain rest = false → matchElement e (f :: rest) = false) := by
  cases e with
  | mk ro fr n cs =>
    constructor
    · intro hd
      by_cases hc : checkFragment f (.mk ro fr n cs)
      · have hdl := (matchDescendant_eq_any).2 cs rest
        have hpt : (fun d => matchElementD d rest) =
            (fun d => specMatchFragments rest d) :=
          funext (fun d => (matchElementD_eq_spec).1 d rest hd)
        match rest, hne with
        | g :: rest2, _ =>
          simp [matchElement, specMatchFragments, hc, hf, hdl, hpt,
            SnapshotElement.children]
      · simp [matchElement, specMatchFragments, hc]
    · intro hd
      by_cases hc : checkFragment f (.mk ro fr n cs)
      · have hl : matchDescendantL cs rest = false := by
          rw [(matchDescendant_eq_any).2 cs rest]
          rw [show (fun d => matchElementD d rest) = (fun _ => false) from
            funext (fun d => (matchElementD_bad_chain).1 d rest hd)]
          simp
        match rest, hne with
        | g :: rest2, _ => simp [matchElement, hc, hf, hl]
      · simp [matchElement, hc]

/-- Amended-C1 witness: the two-fragment descendant selector follows the
spec rule on the sample tree; the three-fragment `"a b c"` chain matches
nothing. -/
theorem spec_c1_descendant_rule_witness :
    matchElement sampleRootA
      [⟨some "a", none, [], some ' '⟩, ⟨some "b", none, [], none⟩] =
      specMatchFragments
        [⟨some "a", none, [], some ' '⟩, ⟨some "b", none, [], none⟩]
        sampleRootA ∧
    matchElement sampleRootA
      [⟨some "a", none, [], some ' '⟩, ⟨some "b", none, [], some ' '⟩,
        ⟨some "c", none, [], none⟩] = false :=
  ⟨(spec_c1_descendant_rule sampleRootA ⟨some "a", none, [], some ' '⟩
      [⟨some "b", none, [], none⟩] rfl (by simp)).1 (by decide),
   (spec_c1_descendant_rule sampleRootA ⟨some "a", none, [], some ' '⟩
      [⟨some "b", none, [], some ' '⟩, ⟨some "c", none, [], none⟩] rfl
      (by simp)).2 (by decide)⟩

/-! ## BM25 infrastructure: index invariants and score totality -/

/-- Any recorded frequency is bounded by the document length. -/
theorem alistGetN_le_freqTotal (tok : String) :
    ∀ freqs v, alistGetN tok freqs = some v → v ≤ freqTotal freqs := by
  intro freqs
  induction freqs with
  | nil => intro v h; simp [alistGetN] at h
  | cons p rest ih =>
    intro v h
    rw [alistGetN] at h
    by_cases hk : p.1 = tok
    · rw [if_pos hk] at h
      cases h
      simp [freqTotal]
    · rw [if_neg hk] at h
      calc v ≤ freqTotal rest := ih v h
        _ ≤ freqTotal (p :: rest) := by simp [freqTotal]

/-- Effect of the `add_document` fold on every index field. -/
theorem addDocs_spec (docs : List String) : ∀ idx : BM25Index,
    (docs.foldl (fun i d => i.addDocument d) idx).documents = idx.documents ++ docs ∧
    (docs.foldl (fun i d => i.addDocument d) idx).docFreqs =
      idx.docFreqs ++ docs.map (fun d => freqMap (pyTokenizeText d)) ∧
    (docs.foldl (fun i d => i.addDocument d) idx).k1 = idx.k1 ∧
    (docs.foldl (fun i d => i.addDocument d) idx).b = idx.b ∧
    (docs.foldl (fun i d => i.addDocument d) idx).avgDocLen = idx.avgDocLen := by
  induction docs with
  | nil => intro idx; simp
  | cons d ds ih =>
    intro idx
    have h := ih (idx.addDocument d)
    simpa [BM25Index.addDocument] using h

theorem build_built (lg : ℚ → ℚ) (idx : BM25Index) :
    (BM25Index.build lg idx).built = true := by
  unfold BM25Index.build
  split
  · assumption
  · split <;> rfl

theorem build_of_built (lg : ℚ → ℚ) (idx : BM25Index) (h : idx.built = true) :
    BM25Index.build lg idx = idx := by
  unfold BM25Index.build
  rw [if_pos h]

/-- `build` never touches the corpus fields or the parameters. -/
theorem build_fields (lg : ℚ → ℚ) (idx : BM25Index) :
    (BM25Index.build lg idx).documents = idx.documents ∧
    (BM25Index.build lg idx).docFreqs = idx.docFreqs ∧
    (BM25Index.build lg idx).k1 = idx.k1 ∧
    (BM25Index.build lg idx).b = idx.b := by
  unfold BM25Index.build
  split
  · exact ⟨rfl, rfl, rfl, rfl⟩
  · split <;> exact ⟨rfl, rfl, rfl, rfl⟩

/-- On a freshly built non-degenerate index, the average document length
is positive as soon as any document has any token. -/
theorem build_avg_pos (lg : ℚ → ℚ) (idx : BM25Index)
    (hnb : idx.built = false)
    (hdd : idx.docFreqs.length ≤ idx.documents.length)
    (freqs : List (String × Nat)) (hmem : freqs ∈ idx.docFreqs)
    (tok : String) (tf : Nat) (htf : alistGetN tok freqs = some (tf + 1)) :
    0 < (BM25Index.build lg idx).avgDocLen := by
  have hpos : 0 < idx.documents.length :=
    lt_of_lt_of_le (List.length_pos.mpr (List.ne_nil_of_mem hmem)) hdd
  have hne : idx.documents.isEmpty = false := by
    cases hd : idx.documents
    · rw [hd] at hpos; simp at hpos
    · simp [hd]
  unfold BM25Index.build
  rw [if_neg (by simp [hnb]), if_neg (by simp [hne])]
  have h1 : tf + 1 ≤ freqTotal freqs := alistGetN_le_freqTotal tok freqs _ htf
  have h2 : freqTotal freqs ≤ (idx.docFreqs.map freqTotal).sum :=
    List.single_le_sum (fun x _ => Nat.zero_le x) _ (List.mem_map_of_mem _ hmem)
  have htot : 0 < (idx.docFreqs.map freqTotal).sum := by omega
  exact div_pos (by exact_mod_cast htot) (by exact_mod_cast hpos)

/-- The score accumulation loop never raises, given the default BM25
parameters and a positive average length whenever the document is
nonempty. -/
theorem scoreLoop_ok (idx : BM25Index) (freqs : List (String × Nat))
    (docLen : Nat)
    (hk1 : idx.k1 = 3/2) (hb : idx.b = 3/4)
    (havg : (∃ tok tf, alistGetN tok freqs = some (tf + 1)) →
      0 < idx.avgDocLen) :
    ∀ qtoks acc, ∃ v, scoreLoop idx freqs docLen qtoks acc = .ok v := by
  intro qtoks
  induction qtoks with
  | nil => intro acc; exact ⟨acc, rfl⟩
  | cons t ts ih =>
    intro acc
    cases hq : alistGetQ t idx.idf with
    | none =>
      obtain ⟨v, hv⟩ := ih acc
      exact ⟨v, by rw [scoreLoop, hq]; exact hv⟩
    | some idfv =>
      cases hn : alistGetN t freqs with
      | none =>
        obtain ⟨v, hv⟩ := ih acc
        exact ⟨v, by rw [scoreLoop, hq, hn]; exact hv⟩
      | some tf =>
        cases tf with
        | zero =>
          obtain ⟨v, hv⟩ := ih acc
          exact ⟨v, by rw [scoreLoop, hq, hn]; exact hv⟩
        | succ tf' =>
          have havg' : 0 < idx.avgDocLen := havg ⟨t, tf', hn⟩
          have hratio : 0 ≤ (docLen : ℚ) / idx.avgDocLen :=
            div_nonneg (by positivity) (le_of_lt havg')
          have hden : ¬(((tf' + 1 : Nat) : ℚ) +
              idx.k1 * (1 - idx.b + idx.b * ((docLen : ℚ) / idx.avgDocLen)) = 0) := by
            rw [hk1, hb]
            have h1 : (0 : ℚ) < ((tf' + 1 : Nat) : ℚ) := by positivity
            nlinarith [hratio]
          obtain ⟨v, hv⟩ := ih (acc + idfv * ((tf' + 1 : Nat) : ℚ) * (idx.k1 + 1) /
            (((tf' + 1 : Nat) : ℚ) +
              idx.k1 * (1 - idx.b + idx.b * ((docLen : ℚ) / idx.avgDocLen))))
          refine ⟨v, ?_⟩
          have hstep : scoreLoop idx freqs docLen (t :: ts) acc =
              if idx.avgDocLen = 0 then Except.error "division by zero"
              else if ((tf' + 1 : Nat) : ℚ) +
                  idx.k1 * (1 - idx.b + idx.b * ((docLen : ℚ) / idx.avgDocLen)) = 0 then
                Except.error "division by zero"
              else
                scoreLoop idx freqs docLen ts
                  (acc + idfv * ((tf' + 1 : Nat) : ℚ) * (idx.k1 + 1) /
                    (((tf' + 1 : Nat) : ℚ) +
                      idx.k1 * (1 - idx.b + idx.b * ((docLen : ℚ) / idx.avgDocLen)))) := by
            rw [scoreLoop, hq, hn]
          rw [hstep, if_neg (ne_of_gt havg'), if_neg hden]
          exact hv

/-- `score` on an index whose document-frequency maps all live under a
suitable average never raises. -/
theorem scoreTokens_ok (idx : BM25Index)
    (hk1 : idx.k1 = 3/2) (hb : idx.b = 3/4)
    (havg : ∀ freqs ∈ idx.docFreqs,
      (∃ tok tf, alistGetN tok freqs = some (tf + 1)) → 0 < idx.avgDocLen) :
    ∀ qtoks i, ∃ v, idx.scoreTokens qtoks i = .ok v := by
  intro qtoks i
  unfold BM25Index.scoreTokens
  by_cases hi : idx.documents.length ≤ i
  · rw [if_pos hi]; exact ⟨0, rfl⟩
  · rw [if_neg hi]
    by_cases hd : i < idx.docFreqs.length
    · have hmem : idx.docFreqs.getD i [] ∈ idx.docFreqs := by
        rw [List.getD_eq_getElem _ _ hd]
        exact List.getElem_mem hd
      exact scoreLoop_ok idx _ _ hk1 hb (havg _ hmem) qtoks 0
    · have hget : idx.docFreqs.getD i [] = [] :=
        List.getD_eq_default _ _ (by omega)
      rw [hget]
      refine scoreLoop_ok idx [] _ hk1 hb ?_ qtoks 0
      rintro ⟨tok, tf, htf⟩
      simp [alistGetN] at htf

/-! ## Claim C7: ranked search output shape -/

/-- The strict order realised by the stable descending sort on index/score
pairs whose indices increase in the input: strictly larger score first,
ties by ascending index. -/
def rankOrder (a b : Nat × ℚ) : Prop :=
  b.2 < a.2 ∨ (a.2 = b.2 ∧ a.1 < b.1)

theorem mem_insertDesc (p : Nat × ℚ) :
    ∀ l x, x ∈ insertDesc p l ↔ x = p ∨ x ∈ l := by
  intro l
  induction l with
  | nil => intro x; simp [insertDesc]
  | cons q rest ih =>
    intro x
    by_cases h : p.2 < q.2
    · simp only [insertDesc, if_pos h, List.mem_cons, ih x]
      tauto
    · simp only [insertDesc, if_neg h, List.mem_cons]

theorem insertDesc_pairwise (p : Nat × ℚ) :
    ∀ l, l.Pairwise rankOrder → (∀ q ∈ l, p.2 = q.2 → p.1 < q.1) →
      (insertDesc p l).Pairwise rankOrder := by
  intro l
  induction l with
  | nil => intro _ _; simp [insertDesc, List.pairwise_singleton]
  | cons q rest ih =>
    intro hl hp
    rcases List.pairwise_cons.mp hl with ⟨hq, hrest⟩
    by_cases h : p.2 < q.2
    · rw [insertDesc, if_pos h]
      refine List.pairwise_cons.mpr ⟨?_, ih hrest (fun x hx => hp x (by simp [hx]))⟩
      intro x hx
      rcases (mem_insertDesc p rest x).mp hx with hxe | hxm
      · subst hxe; exact Or.inl h
      · exact hq x hxm
    · rw [insertDesc, if_neg h]
      refine List.pairwise_cons.mpr ⟨?_, hl⟩
      intro x hx
      rcases List.mem_cons.mp hx with hxe | hxm
      · subst hxe
        rcases lt_or_eq_of_le (le_of_not_lt h) with hlt | heq
        · exact Or.inl hlt
        · exact Or.inr ⟨heq.symm, hp x (by simp) heq.symm⟩
      · rcases hq x hxm with hlt | ⟨heq, hidx⟩
        · exact Or.inl (lt_of_lt_of_le hlt (le_of_not_lt h))
        · rcases lt_or_eq_of_le (le_of_not_lt h) with h2 | h2
          · exact Or.inl (heq ▸ h2)
          · exact Or.inr ⟨h2.symm.trans heq, hp x (by simp [hxm]) (h2.symm.trans heq)⟩

theorem mem_sortDesc : ∀ l x, x ∈ sortDesc l ↔ x ∈ l := by
  intro l
  induction l with
  | nil => intro x; simp [sortDesc]
  | cons p rest ih =>
    intro x
    have hstep : sortDesc (p :: rest) = insertDesc p (sortDesc rest) := rfl
    rw [hstep, mem_insertDesc]
    simp [ih x]

/-- Stable descending sort of a list with strictly increasing indices is
ordered by `rankOrder`. -/
theorem sortDesc_pairwise :
    ∀ l : List (Nat × ℚ), l.Pairwise (fun a b => a.1 < b.1) →
      (sortDesc l).Pairwise rankOrder := by
  intro l
  induction l with
  | nil => intro _; simp [sortDesc]
  | cons p rest ih =>
    intro hl
    rcases List.pairwise_cons.mp hl with ⟨hp, hrest⟩
    have hstep : sortDesc (p :: rest) = insertDesc p (sortDesc rest) := rfl
    rw [hstep]
    exact insertDesc_pairwise p (sortDesc rest) (ih hrest)
      (fun q hq _ => hp q ((mem_sortDesc rest q).mp hq))

theorem scorePairs_ok (sc : Nat → Except String ℚ) :
    ∀ idxs, (∀ i ∈ idxs, ∃ v, sc i = .ok v) →
      ∃ l, scorePairs sc idxs = .ok l ∧ l.map Prod.fst = idxs := by
  intro idxs
  induction idxs with
  | nil => exact fun _ => ⟨[], rfl, rfl⟩
  | cons i is ih =>
    intro h
    obtain ⟨v, hv⟩ := h i (by simp)
    obtain ⟨l, hl, hmap⟩ := ih (fun j hj => h j (by simp [hj]))
    refine ⟨(i, v) :: l, ?_, by simp [hmap]⟩
    rw [scorePairs, hv, hl]

theorem addDocs_built (docs : List String) :
    ∀ idx : BM25Index, idx.built = false →
      (docs.foldl (fun i d => i.addDocument d) idx).built = false := by
  induction docs with
  | nil => intro idx h; exact h
  | cons d ds ih => intro idx _; exact ih (idx.addDocument d) rfl

/-- The corpus fields of the index `_build_bm25_index` constructs. -/
theorem bm25IndexOf_fields (lg : ℚ → ℚ) (t : List SnapshotElement) :
    (bm25IndexOf lg t).documents =
      (elementsWithNamesL t).map (fun e => e.name.getD "") ∧
    (bm25IndexOf lg t).docFreqs = ((elementsWithNamesL t).map
      (fun e => e.name.getD "")).map (fun d => freqMap (pyTokenizeText d)) ∧
    (bm25IndexOf lg t).k1 = 3/2 ∧ (bm25IndexOf lg t).b = 3/4 ∧
    (bm25IndexOf lg t).built = true := by
  have hfold : (elementsWithNamesL t).foldl
      (fun idx e => idx.addDocument (e.name.getD "")) BM25Index.init =
      ((elementsWithNamesL t).map (fun e => e.name.getD "")).foldl
        (fun idx d => idx.addDocument d) BM25Index.init := by
    rw [List.foldl_map]
  have hspec := addDocs_spec
    ((elementsWithNamesL t).map (fun e => e.name.getD "")) BM25Index.init
  have hbf := build_fields lg
    (((elementsWithNamesL t).map (fun e => e.name.getD "")).foldl
      (fun idx d => idx.addDocument d) BM25Index.init)
  have hidx : bm25IndexOf lg t = BM25Index.build lg
      (((elementsWithNamesL t).map (fun e => e.name.getD "")).foldl
        (fun idx d => idx.addDocument d) BM25Index.init) := by
    unfold bm25IndexOf; rw [hfold]
  refine ⟨?_, ?_, ?_, ?_, ?_⟩
  · rw [hidx, hbf.1, hspec.1]; rfl
  · rw [hidx, hbf.2.1, hspec.2.1]; rfl
  · rw [hidx, hbf.2.2.1, hspec.2.2.1]; rfl
  · rw [hidx, hbf.2.2.2, hspec.2.2.2.1]; rfl
  · rw [hidx]; exact build_built lg _

theorem bm25IndexOf_eq_build (lg : ℚ → ℚ) (t : List SnapshotElement) :
    bm25IndexOf lg t = BM25Index.build lg
      (((elementsWithNamesL t).map (fun e => e.name.getD "")).foldl
        (fun idx d => idx.addDocument d) BM25Index.init) := by
  unfold bm25IndexOf
  rw [List.foldl_map]

/-- The scorer of the index built over the tree never raises. -/
theorem bm25IndexOf_score_ok (lg : ℚ → ℚ) (t : List SnapshotElement) :
    ∀ qtoks i, ∃ v, (bm25IndexOf lg t).scoreTokens qtoks i = .ok v := by
  obtain ⟨hdocs, hdf, hk1, hb, hbuilt⟩ := bm25IndexOf_fields lg t
  have hspec := addDocs_spec
    ((elementsWithNamesL t).map (fun e => e.name.getD "")) BM25Index.init
  refine scoreTokens_ok _ hk1 hb ?_
  intro freqs hmem ⟨tok, tf, htf⟩
  rw [bm25IndexOf_eq_build]
  refine build_avg_pos lg _ ?_ ?_ freqs ?_ tok tf htf
  · exact addDocs_built _ _ rfl
  · rw [hspec.1, hspec.2.1]
    simp [BM25Index.init]
  · have hdx : (bm25IndexOf lg t).docFreqs =
        (((elementsWithNamesL t).map (fun e => e.name.getD "")).foldl
          (fun idx d => idx.addDocument d) BM25Index.init).docFreqs := by
      rw [bm25IndexOf_eq_build]
      exact (build_fields lg _).2.1
    rw [← hdx]
    exact hmem

/-- **C7.**  `find_by_name_bm25(q, top_k=k)` returns at most `k`
elements; the underlying ranked pairs all carry a strictly positive BM25
score, are sorted non-increasingly by score, and ties keep the original
pre-order document index order (Python's sort is stable); the returned
elements are exactly those pairs' documents in that order. -/
theorem spec_c7_bm25_ranking (lg : ℚ → ℚ) (t : List SnapshotElement)
    (q : String) (k : Nat) :
    ∃ pairs : List (Nat × ℚ),
      (bm25IndexOf lg t).search lg q (some k) = .ok pairs ∧
      findByNameBm25 lg t q (some k) =
        .ok (pairs.map (fun p => (elementsWithNamesL t).getD p.1 default)) ∧
      pairs.length ≤ k ∧
      (∀ p ∈ pairs, 0 < p.2) ∧
      pairs.Pairwise (fun a b => b.2 ≤ a.2) ∧
      pairs.Pairwise (fun a b => a.2 = b.2 → a.1 < b.1) := by
  obtain ⟨hdocs, hdf, hk1, hb, hbuilt⟩ := bm25IndexOf_fields lg t
  obtain ⟨pairs0, hsp, hmap⟩ := scorePairs_ok
    (fun i => (bm25IndexOf lg t).scoreTokens (pyTokenizeText q) i)
    (List.range (bm25IndexOf lg t).documents.length)
    (fun i _ => bm25IndexOf_score_ok lg t (pyTokenizeText q) i)
  have hsearch : (bm25IndexOf lg t).search lg q (some k) =
      .ok ((((sortDesc pairs0).filter (fun p => 0 < p.2)).take k)) := by
    unfold BM25Index.search
    simp only [build_of_built lg (bm25IndexOf lg t) hbuilt]
    rw [hsp]
  have hfst : pairs0.Pairwise (fun a b => a.1 < b.1) := by
    have hrange := List.pairwise_lt_range (bm25IndexOf lg t).documents.length
    rw [← hmap] at hrange
    exact List.pairwise_map.mp hrange
  have hpw : (((sortDesc pairs0).filter (fun p => 0 < p.2)).take k).Pairwise
      rankOrder :=
    List.Pairwise.sublist
      ((List.take_sublist _ _).trans (List.filter_sublist _))
      (sortDesc_pairwise pairs0 hfst)
  refine ⟨((sortDesc pairs0).filter (fun p => 0 < p.2)).take k,
    hsearch, ?_, List.length_take_le _ _, ?_, ?_, ?_⟩
  · by_cases hews : (elementsWithNamesL t).isEmpty
    · have hlen0 : (bm25IndexOf lg t).documents.length = 0 := by
        rw [hdocs]
        simp only [List.isEmpty_iff] at hews
        simp [hews]
      have hp0 : pairs0 = [] := by
        rw [hlen0] at hmap
        simpa using hmap
      have hpairs : (((sortDesc pairs0).filter (fun p => 0 < p.2)).take k) =
          ([] : List (Nat × ℚ)) := by
        rw [hp0]; simp [sortDesc]
      unfold findByNameBm25
      rw [if_pos hews, hpairs]
      rfl
    · unfold findByNameBm25
      rw [if_neg hews, hsearch]
  · intro p hp
    have hpf := List.mem_of_mem_take hp
    have := List.of_mem_filter hpf
    exact of_decide_eq_true this
  · refine hpw.imp ?_
    intro a b h
    rcases h with hlt | ⟨heq, _⟩
    · exact le_of_lt hlt
    · exact le_of_eq heq.symm
  · refine hpw.imp ?_
    intro a b h heq
    rcases h with hlt | ⟨_, hidx⟩
    · rw [heq] at hlt; exact absurd hlt (lt_irrefl _)
    · exact hidx

/-! ## Claim C8: BM25 edge cases -/

theorem alistGetN_none_iff (tok : String) :
    ∀ m, alistGetN tok m = none ↔ ∀ p ∈ m, p.1 ≠ tok := by
  intro m
  induction m with
  | nil => simp [alistGetN]
  | cons p rest ih =>
    by_cases h : p.1 = tok
    · simp [alistGetN, h]
    · simp [alistGetN, h, ih]

theorem alistGetN_incr_none (tok k : String) :
    ∀ m, alistGetN tok (alistIncr k m) = none ↔
      k ≠ tok ∧ alistGetN tok m = none := by
  intro m
  induction m with
  | nil =>
    by_cases h : k = tok <;> simp [alistIncr, alistGetN, h]
  | cons p rest ih =>
    by_cases hpk : p.1 = k
    · by_cases hpt : p.1 = tok
      · simp [alistIncr, alistGetN, hpk, hpt, hpk ▸ hpt]
      · have hkt : (k = tok) ↔ False := by
          constructor
          · intro h; exact hpt (hpk.trans h)
          · exact False.elim
        simp [alistIncr, alistGetN, hpk, hpt, hkt]
    · by_cases hpt : p.1 = tok
      · have htk : ¬(tok = k) := fun h => hpk (hpt.trans h)
        simp [alistIncr, alistGetN, hpk, hpt, htk]
      · simp [alistIncr, alistGetN, hpk, hpt, ih]

/-- Key set of the inner `term_doc_count` fold. -/
theorem termDocCount_inner_none (tok : String) :
    ∀ (freqs : List (String × Nat)) (m : List (String × Nat)),
      alistGetN tok (freqs.foldl (fun m' p => alistIncr p.1 m') m) = none ↔
        (∀ p ∈ freqs, p.1 ≠ tok) ∧ alistGetN tok m = none := by
  intro freqs
  induction freqs with
  | nil => intro m; simp
  | cons p rest ih =>
    intro m
    rw [List.foldl_cons, ih (alistIncr p.1 m), alistGetN_incr_none]
    constructor
    · rintro ⟨h1, h2, h3⟩
      refine ⟨?_, h3⟩
      intro x hx
      rcases List.mem_cons.mp hx with h | h
      · rw [h]; exact h2
      · exact h1 x h
    · rintro ⟨h1, h3⟩
      exact ⟨fun x hx => h1 x (by simp [hx]), h1 p (by simp), h3⟩

theorem termDocCount_none (tok : String) :
    ∀ (dfs : List (List (String × Nat))) (m : List (String × Nat)),
      alistGetN tok (dfs.foldl
        (fun m freqs => freqs.foldl (fun m' p => alistIncr p.1 m') m) m) = none ↔
      (∀ freqs ∈ dfs, ∀ p ∈ freqs, p.1 ≠ tok) ∧ alistGetN tok m = none := by
  intro dfs
  induction dfs with
  | nil => intro m; simp
  | cons freqs rest ih =>
    intro m
    rw [List.foldl_cons, ih, termDocCount_inner_none]
    constructor
    · rintro ⟨h1, h2, h3⟩
      refine ⟨?_, h3⟩
      intro x hx
      rcases List.mem_cons.mp hx with h | h
      · rw [h]; exact h2
      · exact h1 x h
    · rintro ⟨h1, h3⟩
      exact ⟨fun x hx => h1 x (by simp [hx]), h1 freqs (by simp), h3⟩

theorem alistGetQ_map_none (tok : String) (g : String × Nat → ℚ) :
    ∀ m, alistGetQ tok (m.map (fun p => (p.1, g p))) = none ↔
      alistGetN tok m = none := by
  intro m
  induction m with
  | nil => simp [alistGetQ, alistGetN]
  | cons p rest ih =>
    by_cases h : p.1 = tok <;> simp [alistGetQ, alistGetN, h, ih]

theorem addDocs_idf (docs : List String) :
    ∀ idx : BM25Index,
      (docs.foldl (fun i d => i.addDocument d) idx).idf = idx.idf := by
  induction docs with
  | nil => intro idx; rfl
  | cons d ds ih => intro idx; exact ih (idx.addDocument d)

/-- A token absent from every document's frequency keys is absent from
the built IDF table. -/
theorem build_idf_none (lg : ℚ → ℚ) (idx : BM25Index) (tok : String)
    (h0 : alistGetQ tok idx.idf = none)
    (h : ∀ freqs ∈ idx.docFreqs, ∀ p ∈ freqs, p.1 ≠ tok) :
    alistGetQ tok (BM25Index.build lg idx).idf = none := by
  unfold BM25Index.build
  split
  · exact h0
  · split
    · exact h0
    · rw [alistGetQ_map_none]
      rw [termDocCount, termDocCount_none]
      exact ⟨h, rfl⟩

theorem mem_alistIncr_keys (k : String) :
    ∀ m p, p ∈ alistIncr k m → p.1 = k ∨ ∃ q ∈ m, q.1 = p.1 := by
  intro m
  induction m with
  | nil => intro p hp; simp [alistIncr] at hp; simp [hp]
  | cons q rest ih =>
    intro p hp
    by_cases h : q.1 = k
    · rw [alistIncr, if_pos h] at hp
      rcases List.mem_cons.mp hp with hp | hp
      · exact Or.inl (by rw [hp]; exact h)
      · exact Or.inr ⟨p, by simp [hp]⟩
    · rw [alistIncr, if_neg h] at hp
      rcases List.mem_cons.mp hp with hp | hp
      · exact Or.inr ⟨q, by simp, by rw [hp]⟩
      · rcases ih p hp with h1 | ⟨x, hx, hx2⟩
        · exact Or.inl h1
        · exact Or.inr ⟨x, by simp [hx], hx2⟩

theorem foldl_incr_keys :
    ∀ (toks : List String) (acc : List (String × Nat)) (p : String × Nat),
      p ∈ toks.foldl (fun m t => alistIncr t m) acc →
      p.1 ∈ toks ∨ ∃ q ∈ acc, q.1 = p.1 := by
  intro toks
  induction toks with
  | nil => intro acc p hp; exact Or.inr ⟨p, hp, rfl⟩
  | cons t ts ih =>
    intro acc p hp
    rw [List.foldl_cons] at hp
    rcases ih (alistIncr t acc) p hp with h | ⟨q, hq, hq2⟩
    · exact Or.inl (by simp [h])
    · rcases mem_alistIncr_keys t acc q hq with h1 | ⟨x, hx, hx2⟩
      · exact Or.inl (by simp [← hq2, h1])
      · exact Or.inr ⟨x, hx, hx2.trans hq2⟩

/-- Every key of a term-frequency map is one of the document's tokens. -/
theorem freqMap_keys (toks : List String) (p : String × Nat)
    (hp : p ∈ freqMap toks) : p.1 ∈ toks := by
  rw [freqMap] at hp
  rcases foldl_incr_keys toks [] p hp with h | ⟨q, hq, _⟩
  · exact h
  · simp at hq

theorem scoreLoop_skip (idx : BM25Index) (freqs : List (String × Nat))
    (docLen : Nat) (tok : String) (ts : List String) (acc : ℚ)
    (h : alistGetQ tok idx.idf = none) :
    scoreLoop idx freqs docLen (tok :: ts) acc =
      scoreLoop idx freqs docLen ts acc := by
  rw [scoreLoop, h]

theorem scoreTokens_skip (idx : BM25Index) (tok : String)
    (h : alistGetQ tok idx.idf = none) (ts : List String) (i : Nat) :
    idx.scoreTokens (tok :: ts) i = idx.scoreTokens ts i := by
  unfold BM25Index.scoreTokens
  by_cases hi : idx.documents.length ≤ i
  · rw [if_pos hi, if_pos hi]
  · rw [if_neg hi, if_neg hi]
    exact scoreLoop_skip _ _ _ _ _ _ h

/-- The index built by folding `add_document` over a document list. -/
def addDocsIndex (docs : List String) : BM25Index :=
  docs.foldl (fun i d => i.addDocument d) BM25Index.init

/-- The scorer of any corpus-built index never raises. -/
theorem addDocsIndex_score_ok (lg : ℚ → ℚ) (docs : List String) :
    ∀ qtoks i, ∃ v,
      (BM25Index.build lg (addDocsIndex docs)).scoreTokens qtoks i = .ok v := by
  have hspec := addDocs_spec docs BM25Index.init
  have hbf := build_fields lg (addDocsIndex docs)
  refine scoreTokens_ok _ ?_ ?_ ?_
  · rw [hbf.2.2.1]; rw [addDocsIndex, hspec.2.2.1]; rfl
  · rw [hbf.2.2.2]; rw [addDocsIndex, hspec.2.2.2.1]; rfl
  · intro freqs hmem ⟨tok, tf, htf⟩
    refine build_avg_pos lg _ ?_ ?_ freqs ?_ tok tf htf
    · exact addDocs_built _ _ rfl
    · rw [addDocsIndex, hspec.1, hspec.2.1]
      simp [BM25Index.init]
    · rw [← hbf.2.1]
      exact hmem

/-- **C8.**  Building over the empty corpus succeeds with average length
0 and every score 0; a query term unseen during indexing contributes 0 to
every document's score; and scoring never raises — in particular the
`doc_len / avg_doc_len` division is never reached with a zero average. -/
theorem spec_c8_bm25_edge_cases (lg : ℚ → ℚ) :
    ((BM25Index.build lg BM25Index.init).avgDocLen = 0 ∧
      (BM25Index.build lg BM25Index.init).built = true ∧
      ∀ q i, BM25Index.score lg BM25Index.init q i = .ok 0) ∧
    (∀ (docs : List String) (tok : String),
      (∀ d ∈ docs, tok ∉ pyTokenizeText d) →
      ∀ ts i,
        (BM25Index.build lg (addDocsIndex docs)).scoreTokens (tok :: ts) i =
          (BM25Index.build lg (addDocsIndex docs)).scoreTokens ts i) ∧
    (∀ (docs : List String) (q : String) (i : Nat),
      ∃ v, BM25Index.score lg (addDocsIndex docs) q i = .ok v) := by
  refine ⟨⟨rfl, rfl, ?_⟩, ?_, ?_⟩
  · intro q i
    unfold BM25Index.score BM25Index.scoreTokens
    rw [if_pos]
    exact Nat.zero_le i
  · intro docs tok hunseen ts i
    have hspec := addDocs_spec docs BM25Index.init
    refine scoreTokens_skip _ _ ?_ ts i
    refine build_idf_none lg _ tok ?_ ?_
    · rw [addDocsIndex, addDocs_idf]; rfl
    · rw [addDocsIndex, hspec.2.1]
      intro freqs hmem p hp
      rcases List.mem_append.mp hmem with hmem | hmem
      · simp [BM25Index.init] at hmem
      · rcases List.mem_map.mp hmem with ⟨d, hd, hfd⟩
        subst hfd
        intro hpt
        exact hunseen d hd (hpt ▸ freqMap_keys (pyTokenizeText d) p hp)
  · intro docs q i
    exact addDocsIndex_score_ok lg docs (pyTokenizeText q) i

/-- C8 witness: empty corpus, and the unseen term `x` against the
one-document corpus `hello`. -/
theorem spec_c8_bm25_edge_cases_witness :
    (BM25Index.build (fun _ => 0) BM25Index.init).avgDocLen = 0 ∧
    (BM25Index.build (fun _ => 0) (addDocsIndex ["hello"])).scoreTokens
        ("x" :: []) 0 =
      (BM25Index.build (fun _ => 0) (addDocsIndex ["hello"])).scoreTokens [] 0 :=
  ⟨(spec_c8_bm25_edge_cases (fun _ => 0)).1.1,
   (spec_c8_bm25_edge_cases (fun _ => 0)).2.1 ["hello"] "x" (by decide) [] 0⟩

end SnapshotQuery
